import Mathlib

/-!
Shallow embedding of the PythonCKMetrics repository (src/ck_metrics.py and
src/combine.py) together with proofs checking the natural-language
specification against the code.

Conventions of the embedding:
* Python `dict`s (insertion ordered) are association lists `List (String × α)`;
  re-assignment of an existing key keeps its position, a new key is appended.
* Python `set`s are plain lists; wherever the code takes the *size* of a set,
  the embedding deduplicates first, and membership tests are list membership,
  so the list-vs-set difference is unobservable.
* Python numbers that can become floats through division are modelled as `ℚ`
  (all arithmetic in combine.py is exact field arithmetic on the inputs).
* `statistics.mean` / `statistics.median`, which raise `StatisticsError` on an
  empty list, are modelled as `Option`-returning functions (`none` = raise).
-/

/-! ## Embedding of combine.py -/

/-- The numeric fields of one entry of `class_summary` as consumed by
combine.py (the `ck_metrics` list of the source). -/
structure CombinedClassMetrics where
  wmc : ℚ
  dit : ℚ
  noc : ℚ
  cbo : ℚ
  rfc : ℚ
  lcom4 : ℚ
  lcom4_normalized : ℚ
deriving DecidableEq

/-- Index type for the seven metric names of combine.py's `ck_metrics` list. -/
inductive Metric where
  | wmc
  | dit
  | noc
  | cbo
  | rfc
  | lcom4
  | lcom4_normalized
deriving DecidableEq

/-- The list `ck_metrics = ["wmc", "dit", "noc", "cbo", "rfc", "lcom4",
"lcom4_normalized"]` of combine.py. -/
def ckMetricsList : List Metric :=
  [.wmc, .dit, .noc, .cbo, .rfc, .lcom4, .lcom4_normalized]

/-- `class_data[metric]` of combine.py. -/
def CombinedClassMetrics.get (c : CombinedClassMetrics) : Metric → ℚ
  | .wmc => c.wmc
  | .dit => c.dit
  | .noc => c.noc
  | .cbo => c.cbo
  | .rfc => c.rfc
  | .lcom4 => c.lcom4
  | .lcom4_normalized => c.lcom4_normalized

/-- Building a `CombinedClassMetrics` record field by field, as the
`CombinedClassMetrics(wmc=..., dit=..., ...)` constructor calls of combine.py
do from the per-metric dictionaries. -/
def CombinedClassMetrics.ofFun (f : Metric → ℚ) : CombinedClassMetrics :=
  ⟨f .wmc, f .dit, f .noc, f .cbo, f .rfc, f .lcom4, f .lcom4_normalized⟩

/-- `project_metrics["class_summary"]` as consumed by combine.py: an
insertion-ordered dict from class name to its metric record. -/
abbrev ClassSummary := List (String × CombinedClassMetrics)

/-- `metric_sums` of `combine_metrics`: the sum of one metric across all
classes of the summary. -/
def metricSum (s : ClassSummary) (m : Metric) : ℚ :=
  (s.map (fun kv => kv.2.get m)).sum

/-- The inner loop of `combine_metrics` over `other_metrics`: accumulates
`weight_sum` and `valid_metrics_count`, skipping metrics whose project-wide
sum is zero. -/
def weightAcc (cd : CombinedClassMetrics) (sums : Metric → ℚ)
    (others : List Metric) (init : ℚ × Nat) : ℚ × Nat :=
  others.foldl
    (fun acc m =>
      if sums m = 0 then acc else (acc.1 + cd.get m / sums m, acc.2 + 1))
    init

/-- `avg_weight` of `combine_metrics`: `weight_sum / valid_metrics_count` when
at least one other metric had a nonzero sum, else the default weight `1`. -/
def avgWeight (s : ClassSummary) (cd : CombinedClassMetrics)
    (target : Metric) : ℚ :=
  let p := weightAcc cd (metricSum s)
    (ckMetricsList.filter (fun m => decide (m ≠ target))) (0, 0)
  if 0 < p.2 then p.1 / (p.2 : ℚ) else 1

/-- `combine_metrics` of combine.py: every class gets each target metric
multiplied by its average weight over the other metrics. -/
def combine_metrics (s : ClassSummary) : ClassSummary :=
  s.map (fun kv =>
    (kv.1, CombinedClassMetrics.ofFun (fun t => kv.2.get t * avgWeight s kv.2 t)))

/-- Spec-side list of "valid other metrics" for a target metric: all metrics
other than the target whose project-wide sum is nonzero. -/
def validOthers (s : ClassSummary) (target : Metric) : List Metric :=
  (ckMetricsList.filter (fun m => decide (m ≠ target))).filter
    (fun m => decide (metricSum s m ≠ 0))

/-- Spec-side weight: the mean over all valid other metrics `m` of
`class value of m / project-wide sum of m`, defaulting to `1` when no valid
other metric remains (section 4.6 of the spec). -/
def specWeight (s : ClassSummary) (cd : CombinedClassMetrics)
    (target : Metric) : ℚ :=
  let valid := validOthers s target
  if valid.isEmpty then 1
  else ((valid.map (fun m => cd.get m / metricSum s m)).sum) / (valid.length : ℚ)

/-- Model of `statistics.mean`: arithmetic mean, `none` (raise) on `[]`. -/
def statisticsMean (l : List ℚ) : Option ℚ :=
  if l.isEmpty then none else some (l.sum / (l.length : ℚ))

/-- Insertion into a sorted list, used to model the sort inside
`statistics.median`. -/
def insertSorted (x : ℚ) : List ℚ → List ℚ
  | [] => [x]
  | y :: ys => if x ≤ y then x :: y :: ys else y :: insertSorted x ys

/-- Ascending sort of a list of rationals (insertion sort). -/
def sortRat (l : List ℚ) : List ℚ := l.foldr insertSorted []

/-- Model of `statistics.median`: `none` (raise) on `[]`; otherwise the middle
element of the sorted data, or the average of the two middle elements. -/
def statisticsMedian (l : List ℚ) : Option ℚ :=
  if l.isEmpty then none
  else
    let s := sortRat l
    let n := l.length
    if n % 2 = 1 then some (s.getD (n / 2) 0)
    else some ((s.getD (n / 2 - 1) 0 + s.getD (n / 2) 0) / 2)

/-- `calculate_mean_metrics` of combine.py: collects each metric's values
across all classes and applies `statistics.mean` to each list; `none` when any
of those calls raises. -/
def calculate_mean_metrics (s : ClassSummary) : Option CombinedClassMetrics := do
  let w ← statisticsMean (s.map (fun kv => kv.2.wmc))
  let d ← statisticsMean (s.map (fun kv => kv.2.dit))
  let n ← statisticsMean (s.map (fun kv => kv.2.noc))
  let c ← statisticsMean (s.map (fun kv => kv.2.cbo))
  let r ← statisticsMean (s.map (fun kv => kv.2.rfc))
  let l4 ← statisticsMean (s.map (fun kv => kv.2.lcom4))
  let l4n ← statisticsMean (s.map (fun kv => kv.2.lcom4_normalized))
  pure ⟨w, d, n, c, r, l4, l4n⟩

/-- `calculate_median_metrics` of combine.py: as `calculate_mean_metrics` but
with `statistics.median`. -/
def calculate_median_metrics (s : ClassSummary) : Option CombinedClassMetrics := do
  let w ← statisticsMedian (s.map (fun kv => kv.2.wmc))
  let d ← statisticsMedian (s.map (fun kv => kv.2.dit))
  let n ← statisticsMedian (s.map (fun kv => kv.2.noc))
  let c ← statisticsMedian (s.map (fun kv => kv.2.cbo))
  let r ← statisticsMedian (s.map (fun kv => kv.2.rfc))
  let l4 ← statisticsMedian (s.map (fun kv => kv.2.lcom4))
  let l4n ← statisticsMedian (s.map (fun kv => kv.2.lcom4_normalized))
  pure ⟨w, d, n, c, r, l4, l4n⟩

/-- `calculate_weighted_metrics_combined` of combine.py: collects each
metric's (already weighted) values across all classes and *sums* each list. -/
def calculate_weighted_metrics_combined (ws : ClassSummary) : CombinedClassMetrics :=
  { wmc := (ws.map (fun kv => kv.2.wmc)).sum
    dit := (ws.map (fun kv => kv.2.dit)).sum
    noc := (ws.map (fun kv => kv.2.noc)).sum
    cbo := (ws.map (fun kv => kv.2.cbo)).sum
    rfc := (ws.map (fun kv => kv.2.rfc)).sum
    lcom4 := (ws.map (fun kv => kv.2.lcom4)).sum
    lcom4_normalized := (ws.map (fun kv => kv.2.lcom4_normalized)).sum }

/-! ## Embedding of ck_metrics.py -/

/-- The two boolean operators of `ast.BoolOp` (`and` / `or`). -/
inductive BoolOpKind where
  | band
  | bor
deriving DecidableEq

mutual
/-- Python expression nodes, covering the node kinds the visitors of
ck_metrics.py distinguish: names, constants, boolean operations, attribute
access, calls, comparisons and ternary conditionals. -/
inductive PExpr where
  | pname : String → PExpr
  | pconst : Int → PExpr
  | boolOp : BoolOpKind → List PExpr → PExpr
  | pattr : PExpr → String → PExpr
  | pcall : PExpr → List PExpr → PExpr
  | compare : PExpr → List PExpr → PExpr
  | ifExp : PExpr → PExpr → PExpr → PExpr
end

/-- Python statement nodes of a method body, covering the statement kinds the
visitors of ck_metrics.py distinguish. `sif`/`sfor`/`swhile` carry their body
and `orelse` blocks, `stry` its body, handlers (each with its own block),
`orelse` and `finalbody`. -/
inductive PStmt where
  | sif : PExpr → List PStmt → List PStmt → PStmt
  | sfor : PExpr → List PStmt → List PStmt → PStmt
  | swhile : PExpr → List PStmt → List PStmt → PStmt
  | stry : List PStmt → List (List PStmt) → List PStmt → List PStmt → PStmt
  | sreturn : Option PExpr → PStmt
  | sexprStmt : PExpr → PStmt
  | sassignStmt : List PExpr → PExpr → PStmt
  | spass : PStmt

mutual
/-- Complexity contribution of one expression: the total increment the
`ComplexityVisitor` of ck_metrics.py accumulates while walking it
(`visit_BoolOp` adds `len(values) - 1`, `visit_IfExp` adds 1, everything else
only recurses). -/
def exprComplexity : PExpr → Nat
  | .pname _ => 0
  | .pconst _ => 0
  | .boolOp _ vs => (vs.length - 1) + exprsComplexity vs
  | .pattr v _ => exprComplexity v
  | .pcall f args => exprComplexity f + exprsComplexity args
  | .compare l rs => exprComplexity l + exprsComplexity rs
  | .ifExp t b e => 1 + exprComplexity t + exprComplexity b + exprComplexity e

/-- Complexity contribution of a list of expressions. -/
def exprsComplexity : List PExpr → Nat
  | [] => 0
  | e :: es => exprComplexity e + exprsComplexity es
end

mutual
/-- Complexity contribution of one statement: `visit_If`, `visit_For`,
`visit_While` add 1, `visit_ExceptHandler` adds 1 per handler, `visit_Try`
adds nothing itself, and every visitor recurses into all children. -/
def stmtComplexity : PStmt → Nat
  | .sif t b e => 1 + exprComplexity t + stmtsComplexity b + stmtsComplexity e
  | .sfor it b e => 1 + exprComplexity it + stmtsComplexity b + stmtsComplexity e
  | .swhile t b e => 1 + exprComplexity t + stmtsComplexity b + stmtsComplexity e
  | .stry b hs e f =>
      stmtsComplexity b + handlersComplexity hs + stmtsComplexity e +
        stmtsComplexity f
  | .sreturn none => 0
  | .sreturn (some e) => exprComplexity e
  | .sexprStmt e => exprComplexity e
  | .sassignStmt ts e => exprsComplexity ts + exprComplexity e
  | .spass => 0

/-- Complexity contribution of a list of statements. -/
def stmtsComplexity : List PStmt → Nat
  | [] => 0
  | s :: ss => stmtComplexity s + stmtsComplexity ss

/-- Complexity contribution of the exception handlers of a `try`: one per
handler plus the contribution of each handler's block. -/
def handlersComplexity : List (List PStmt) → Nat
  | [] => 0
  | h :: hs => 1 + stmtsComplexity h + handlersComplexity hs
end

/-- Cyclomatic complexity of a method body: the `ComplexityVisitor` starts at
base complexity 1 and adds every contribution found in the body. -/
def methodComplexity (body : List PStmt) : Nat :=
  1 + stmtsComplexity body

/-- Output of the `MethodVisitor` of ck_metrics.py: called names, self-qualified
attribute names, and identifiers seen as receivers of qualified calls. The
Python sets are modelled as lists; every use dedups or tests membership. -/
structure MVOut where
  method_calls : List String
  attributes : List String
  classes : List String
deriving DecidableEq

mutual
/-- Walk of one expression by the `MethodVisitor`: `visit_Call` records a bare
called name, or the receiver identifier and the attribute name of a qualified
call, then recurses into all children; `visit_Attribute` records `self.x`
reads and recurses into the receiver; every other node only recurses. -/
def mvExpr (acc : MVOut) : PExpr → MVOut
  | .pname _ => acc
  | .pconst _ => acc
  | .boolOp _ vs => mvExprs acc vs
  | .pattr v a =>
      let acc' := match v with
        | .pname id =>
            if id == "self" then { acc with attributes := acc.attributes ++ [a] }
            else acc
        | _ => acc
      mvExpr acc' v
  | .pcall f args =>
      let acc' := match f with
        | .pname id => { acc with method_calls := acc.method_calls ++ [id] }
        | .pattr (.pname v) a =>
            { acc with classes := acc.classes ++ [v],
                       method_calls := acc.method_calls ++ [a] }
        | .pattr _ a => { acc with method_calls := acc.method_calls ++ [a] }
        | _ => acc
      mvExprs (mvExpr acc' f) args
  | .compare l rs => mvExprs (mvExpr acc l) rs
  | .ifExp t b e => mvExpr (mvExpr (mvExpr acc t) b) e

/-- Walk of a list of expressions by the `MethodVisitor`. -/
def mvExprs (acc : MVOut) : List PExpr → MVOut
  | [] => acc
  | e :: es => mvExprs (mvExpr acc e) es
end

mutual
/-- Walk of one statement by the `MethodVisitor`: every statement visitor of
the class (including the `visit_Try` / `visit_With` overrides) visits all of
the statement's children. -/
def mvStmt (acc : MVOut) : PStmt → MVOut
  | .sif t b e => mvStmts (mvStmts (mvExpr acc t) b) e
  | .sfor it b e => mvStmts (mvStmts (mvExpr acc it) b) e
  | .swhile t b e => mvStmts (mvStmts (mvExpr acc t) b) e
  | .stry b hs e f => mvStmts (mvStmts (mvHandlers (mvStmts acc b) hs) e) f
  | .sreturn none => acc
  | .sreturn (some e) => mvExpr acc e
  | .sexprStmt e => mvExpr acc e
  | .sassignStmt ts e => mvExpr (mvExprs acc ts) e
  | .spass => acc

/-- Walk of a list of statements by the `MethodVisitor`. -/
def mvStmts (acc : MVOut) : List PStmt → MVOut
  | [] => acc
  | s :: ss => mvStmts (mvStmt acc s) ss

/-- Walk of the handler blocks of a `try` by the `MethodVisitor`. -/
def mvHandlers (acc : MVOut) : List (List PStmt) → MVOut
  | [] => acc
  | h :: hs => mvHandlers (mvStmts acc h) hs
end

/-- The `ClassInfo` record of ck_metrics.py. Sets are lists (dedup at size,
membership at lookup), dicts are association lists. -/
structure ClassInfo where
  name : String
  bases : List String
  methods : List String
  attributes : List String
  method_calls : List (String × List String)
  method_attrs : List (String × List String)
  called_classes : List String
  method_complexity : List (String × Nat)
deriving DecidableEq

/-- Append a key to a list when absent, modelling `set.add` for a set whose
iteration order matters (insertion order). -/
def addIfAbsent (l : List String) (k : String) : List String :=
  if l.contains k then l else l ++ [k]

/-- `d[k] = v` on an insertion-ordered Python dict: overwrite in place when
the key exists, append otherwise. -/
def dictInsert {α : Type} (l : List (String × α)) (k : String) (v : α) :
    List (String × α) :=
  if l.any (fun kv => kv.1 == k) then
    l.map (fun kv => if kv.1 == k then (k, v) else kv)
  else l ++ [(k, v)]

/-- `d.get(k)` on a Python dict modelled as an association list. -/
def dictLookup {α : Type} (l : List (String × α)) (k : String) : Option α :=
  (l.find? (fun kv => kv.1 == k)).map (fun kv => kv.2)

/-- One item of a class body as `_process_ast` distinguishes them: a
function/async-function definition, an assignment (its targets), or an
annotated assignment (its target). -/
inductive ClassBodyItem where
  | funcDef : String → List PStmt → ClassBodyItem
  | assignItem : List PExpr → ClassBodyItem
  | annAssignItem : PExpr → ClassBodyItem

/-- One `ast.ClassDef` as delivered by the parser, with base names already
resolved to strings (`base.id` for names, the dotted string for attributes,
as `_process_ast` computes them). -/
structure ClassDecl where
  name : String
  bases : List String
  body : List ClassBodyItem

/-- Body-item processing of `_process_ast`: function definitions register the
method, its calls, self-attributes, receiver classes and complexity;
assignments and annotated assignments register class-body attributes. -/
def processBodyItem (ci : ClassInfo) : ClassBodyItem → ClassInfo
  | .funcDef mname mbody =>
      let mv := mvStmts ⟨[], [], []⟩ mbody
      { ci with
        methods := addIfAbsent ci.methods mname
        method_calls := dictInsert ci.method_calls mname mv.method_calls
        method_attrs := dictInsert ci.method_attrs mname mv.attributes
        called_classes := ci.called_classes ++ mv.classes
        method_complexity := dictInsert ci.method_complexity mname
          (methodComplexity mbody) }
  | .assignItem targets =>
      let newAttrs := targets.foldl
        (fun attrs t =>
          match t with
          | .pname id => attrs ++ [id]
          | .pattr (.pname v) a => if v == "self" then attrs ++ [a] else attrs
          | _ => attrs)
        ci.attributes
      { ci with attributes := newAttrs }
  | .annAssignItem target =>
      let newAttrs :=
        match target with
        | .pname id => ci.attributes ++ [id]
        | .pattr (.pname v) a =>
            if v == "self" then ci.attributes ++ [a] else ci.attributes
        | _ => ci.attributes
      { ci with attributes := newAttrs }

/-- The `ClassInfo` built by `_process_ast` for one class declaration. -/
def buildClassInfo (d : ClassDecl) : ClassInfo :=
  d.body.foldl processBodyItem ⟨d.name, d.bases, [], [], [], [], [], []⟩

/-- The mutable state of a `CKMetrics` analyzer: the class table, the
inheritance graph (node list and edge list, both duplicate-free by
construction), and the class-name → file-path index. -/
structure CKState where
  classes : List (String × ClassInfo)
  graph_nodes : List String
  graph_edges : List (String × String)
  file_paths : List (String × String)
deriving DecidableEq

/-- The freshly initialized analyzer state. -/
def CKState.empty : CKState := ⟨[], [], [], []⟩

/-- `networkx.DiGraph.add_node`. -/
def addNode (ns : List String) (v : String) : List String :=
  if ns.contains v then ns else ns ++ [v]

/-- `networkx.DiGraph.add_edge`: both endpoints become nodes, the edge is
added when not already present. -/
def CKState.addEdge (s : CKState) (u v : String) : CKState :=
  { s with
    graph_nodes := addNode (addNode s.graph_nodes u) v
    graph_edges :=
      if s.graph_edges.contains (u, v) then s.graph_edges
      else s.graph_edges ++ [(u, v)] }

/-- The class filter of `_process_ast`: with an active filter, a class whose
name is not listed is skipped entirely. -/
def skipByFilter : Option (List String) → String → Bool
  | none, _ => false
  | some fl, n => !(fl.contains n)

/-- The inheritance-edge loop of `_process_ast` for a class named `n`: one
`add_edge base → n` per base, skipping `'object'`. -/
def basesFold (n : String) (bases : List String) (s : CKState) : CKState :=
  bases.foldl (fun st b => if b == "object" then st else st.addEdge b n) s

/-- Processing of one `ast.ClassDef` by `_process_ast`: honour the filter,
record the file path and the `ClassInfo`, add the class node, and add one
inheritance edge base → class for every base except `'object'`. -/
def processClassDecl (filt : Option (List String)) (file : String)
    (s : CKState) (d : ClassDecl) : CKState :=
  if skipByFilter filt d.name then s
  else
    let ci := buildClassInfo d
    let s1 : CKState :=
      { s with
        file_paths := dictInsert s.file_paths d.name file
        classes := dictInsert s.classes d.name ci }
    let s2 : CKState := { s1 with graph_nodes := addNode s1.graph_nodes d.name }
    basesFold d.name d.bases s2

/-- `_process_ast` over the class declarations found in one file. -/
def processAst (filt : Option (List String)) (file : String) (s : CKState)
    (decls : List ClassDecl) : CKState :=
  decls.foldl (processClassDecl filt file) s

/-- A whole analysis run (`parse_file` over every file of a project). -/
def processFiles (filt : Option (List String))
    (files : List (String × List ClassDecl)) : CKState :=
  files.foldl (fun s fd => processAst filt fd.1 s fd.2) CKState.empty

/-! ## Metric calculators of ck_metrics.py -/

/-- In-degree of a node in the inheritance graph. -/
def inDegree (s : CKState) (v : String) : Nat :=
  (s.graph_edges.filter (fun e => e.2 == v)).length

/-- The roots computed by `_calculate_dit`: nodes with no incoming edge. -/
def graphRoots (s : CKState) : List String :=
  s.graph_nodes.filter (fun v => inDegree s v == 0)

/-- `max` over a list of naturals, `none` on the empty list (Python's `max`
over an empty generator raises, and `_calculate_dit` only takes the max when
the path list is nonempty). -/
def listMaxN : List Nat → Option Nat
  | [] => none
  | n :: ns =>
      match listMaxN ns with
      | none => some n
      | some m => some (max n m)

/-- Length in edges of the longest simple path from `cur` to `target` that
avoids `visited`, with explicit fuel (`none` when no such path exists within
the fuel). This is the executable model of
`max(len(path) - 1 for path in nx.all_simple_paths(graph, root, target))`. -/
def maxSimpleTo (edges : List (String × String)) (target : String) :
    String → List String → Nat → Option Nat
  | cur, _, 0 => if cur == target then some 0 else none
  | cur, visited, fuel + 1 =>
      if cur == target then some 0
      else
        let succs := (edges.filter
          (fun e => e.1 == cur && !((cur :: visited).contains e.2))).map
          (fun e => e.2)
        listMaxN (succs.filterMap
          (fun nxt => (maxSimpleTo edges target nxt (cur :: visited) fuel).map
            (fun n => n + 1)))

/-- `_calculate_dit`: 0 for a name outside the graph, otherwise the maximum
over all roots of the longest simple path from that root to the class. -/
def _calculate_dit (s : CKState) (c : String) : Nat :=
  if s.graph_nodes.contains c then
    (graphRoots s).foldl
      (fun acc r =>
        max acc ((maxSimpleTo s.graph_edges c r [] s.graph_nodes.length).getD 0))
      0
  else 0

/-- `_calculate_noc`: 0 for a name outside the graph, otherwise the number of
distinct direct successors in the inheritance graph. -/
def _calculate_noc (s : CKState) (c : String) : Nat :=
  if s.graph_nodes.contains c then
    (((s.graph_edges.filter (fun e => e.1 == c)).map (fun e => e.2)).dedup).length
  else 0

/-- `_calculate_wmc`: sum over the class's methods of the recorded complexity,
defaulting to 1 for a method with no recorded complexity. -/
def _calculate_wmc (ci : ClassInfo) : Nat :=
  (ci.methods.map (fun m => (dictLookup ci.method_complexity m).getD 1)).sum

/-- `_calculate_cbo`: the size of the coupled-classes set, built from the
declared bases and call receivers, the called names and attribute names that
match another discovered class, with `'object'` and `'self'` removed. -/
def _calculate_cbo (classNames : List String) (cname : String)
    (ci : ClassInfo) : Nat :=
  let fromCalls := ((ci.method_calls.map (fun kv => kv.2)).flatten).filter
    (fun c => classNames.contains c && c != cname)
  let fromAttrs := ci.attributes.filter
    (fun a => classNames.contains a && a != cname)
  let coupled := (ci.bases ++ ci.called_classes ++ fromCalls ++ fromAttrs).dedup
  (coupled.filter (fun c => c != "object" && c != "self")).length

/-- The `special_builtins` allow-list of `_is_builtin_function`. -/
def specialBuiltins : List String :=
  ["super", "getattr", "setattr", "delattr", "hasattr", "type", "dir"]

/-- `_is_builtin_function`, parametrized by the ambient builtin namespace
(`__builtins__` is an environment input, not repository code). -/
def _is_builtin_function (builtins : List String) (m : String) : Bool :=
  if specialBuiltins.contains m then false else builtins.contains m

/-- `_calculate_rfc`: size of the set of own methods plus all called names
that are not builtin functions. -/
def _calculate_rfc (builtins : List String) (ci : ClassInfo) : Nat :=
  ((ci.methods ++ ((ci.method_calls.map (fun kv => kv.2)).flatten).filter
      (fun m => !_is_builtin_function builtins m)).dedup).length

/-- The self-attribute set recorded for a method (empty when absent). -/
def attrsOf (ci : ClassInfo) (m : String) : List String :=
  (dictLookup ci.method_attrs m).getD []

/-- The called-name set recorded for a method (empty when absent). -/
def callsOf (ci : ClassInfo) (m : String) : List String :=
  (dictLookup ci.method_calls m).getD []

/-- Nonempty intersection of the self-attribute sets of two methods. -/
def sharesAttr (ci : ClassInfo) (m1 m2 : String) : Bool :=
  (attrsOf ci m1).any (fun a => (attrsOf ci m2).contains a)

/-- Adjacency of the undirected graph `_calculate_lcom4` builds: an edge
between two distinct methods whose attribute sets intersect (added by the
nested loop in either orientation), and an edge from a method to every called
name that is itself a method (an undirected `networkx.Graph` edge connects
both ways). -/
def lcomAdjCode (ci : ClassInfo) (v w : String) : Bool :=
  (v != w && (sharesAttr ci v w || sharesAttr ci w v)) ||
    ((callsOf ci v).contains w && ci.methods.contains w) ||
    ((callsOf ci w).contains v && ci.methods.contains v)

/-- Whether node `v` has an edge to some member of the component `comp`. -/
def linkedToComp (adj : String → String → Bool) (v : String)
    (comp : List String) : Bool :=
  comp.any (fun w => adj v w || adj w v)

/-- Incremental component merge: adding node `v` fuses all existing components
adjacent to it into one. -/
def insertNode (adj : String → String → Bool) (comps : List (List String))
    (v : String) : List (List String) :=
  (v :: (comps.filter (linkedToComp adj v)).flatten) ::
    comps.filter (fun c => !(linkedToComp adj v c))

/-- Connected components of the graph on `nodes` with adjacency `adj`,
computed by incremental merging; models
`networkx.number_connected_components` via `componentCount`. -/
def componentsOf (adj : String → String → Bool) (nodes : List String) :
    List (List String) :=
  nodes.foldl (insertNode adj) []

/-- Number of connected components of the graph on `nodes`. -/
def componentCount (adj : String → String → Bool) (nodes : List String) : Nat :=
  (componentsOf adj nodes).length

/-- `_calculate_lcom4`: 0 for a class without methods, otherwise the number of
connected components of the method graph. -/
def _calculate_lcom4 (ci : ClassInfo) : Nat :=
  if ci.methods.isEmpty then 0
  else componentCount (lcomAdjCode ci) ci.methods

/-- `_calculate_normalized_lcom4`: `(lcom4 - 1) / (methodCount - 1)` for more
than one method, else `0.0`. -/
def _calculate_normalized_lcom4 (ci : ClassInfo) (lcom4 : Nat) : ℚ :=
  if ci.methods.length ≤ 1 then 0
  else ((lcom4 : ℚ) - 1) / ((ci.methods.length : ℚ) - 1)

/-- One entry of the per-class metric record produced by
`_calculate_class_metrics` (the `ClassMetrics` TypedDict). -/
structure ClassMetricsR where
  wmc : Nat
  dit : Nat
  noc : Nat
  cbo : Nat
  rfc : Nat
  lcom4 : Nat
  lcom4_normalized : ℚ
  methodsM : List (String × Nat)
deriving DecidableEq

/-- `_calculate_class_metrics` for one class of the analyzer state. -/
def _calculate_class_metrics (builtins : List String) (s : CKState)
    (cname : String) (ci : ClassInfo) : ClassMetricsR :=
  let lcom4 := _calculate_lcom4 ci
  { wmc := _calculate_wmc ci
    dit := _calculate_dit s cname
    noc := _calculate_noc s cname
    cbo := _calculate_cbo (s.classes.map (fun kv => kv.1)) cname ci
    rfc := _calculate_rfc builtins ci
    lcom4 := lcom4
    lcom4_normalized := _calculate_normalized_lcom4 ci lcom4
    methodsM := ci.methods.map
      (fun m => (m, (dictLookup ci.method_complexity m).getD 1)) }

/-- The `class_summary` dict built by `calculate_metrics`: one metric record
per entry of the class table, keyed by class name. -/
def class_summary (builtins : List String) (s : CKState) :
    List (String × ClassMetricsR) :=
  s.classes.map (fun kv => (kv.1, _calculate_class_metrics builtins s kv.1 kv.2))

/-! ## Spec-side definitions (formalizing the spec's words, for comparison) -/

/-- A simple path in the inheritance graph from a root to the class `c`,
following the spec's reading of DIT: consecutive edges, no repeated node,
starting at a node with no incoming edge and ending at `c`. Its length in
edges is `p.length - 1`. -/
def RootSimplePath (s : CKState) (c : String) (p : List String) : Prop :=
  List.Chain' (fun a b => (a, b) ∈ s.graph_edges) p ∧ p.Nodup ∧
    (∃ r ∈ graphRoots s, p.head? = some r) ∧ p.getLast? = some c

/-- All called names of all methods of a class, flattened. -/
def allCalledNames (ci : ClassInfo) : List String :=
  (ci.method_calls.map (fun kv => kv.2)).flatten

/-- Every edge of the graph has both endpoints among the nodes. -/
def EdgesClosed (s : CKState) : Prop :=
  ∀ e ∈ s.graph_edges, e.1 ∈ s.graph_nodes ∧ e.2 ∈ s.graph_nodes

/-- All class names declared anywhere in a project. -/
def declaredNames (files : List (String × List ClassDecl)) : List String :=
  (files.map (fun fd => fd.2.map (fun d => d.name))).flatten

/-- The coupled-class set exactly as claim C3 states it: bases, call
receivers, called names matching a discovered class and attribute names
matching a discovered class, minus the universal root and `'self'`, with the
class itself never counted. -/
def cboClaimSet (classNames : List String) (cname : String)
    (ci : ClassInfo) : Finset String :=
  (ci.bases.toFinset ∪ ci.called_classes.toFinset
      ∪ (allCalledNames ci).toFinset.filter (fun c => c ∈ classNames)
      ∪ ci.attributes.toFinset.filter (fun a => a ∈ classNames)) \
    {"object", "self", cname}

/-- The coupled-class set with the self-exclusion applied only where the code
applies it: to the called-name matches and the attribute-name matches.
Declared bases and call receivers are kept even when they name the class
itself. -/
def cboAmendedSet (classNames : List String) (cname : String)
    (ci : ClassInfo) : Finset String :=
  (ci.bases.toFinset ∪ ci.called_classes.toFinset
      ∪ (allCalledNames ci).toFinset.filter
          (fun c => c ∈ classNames ∧ c ≠ cname)
      ∪ ci.attributes.toFinset.filter
          (fun a => a ∈ classNames ∧ a ≠ cname)) \
    {"object", "self"}

/-- The LCOM4 edge relation as claim C8 states it: two distinct methods are
adjacent when their self-attribute sets intersect or one calls the other. -/
def lcomAdjSpec (ci : ClassInfo) (v w : String) : Bool :=
  v != w && (sharesAttr ci v w || (callsOf ci v).contains w ||
    (callsOf ci w).contains v)

/-! ## Concrete instances used by counterexamples and witnesses -/

/-- The method body `if x > 0 and y > 0: return 1` followed by `return 0`
from the spec's complexity scenario. -/
def ifAndBody : List PStmt :=
  [.sif (.boolOp .band [.compare (.pname "x") [.pconst 0],
                        .compare (.pname "y") [.pconst 0]])
      [.sreturn (some (.pconst 1))] [],
   .sreturn (some (.pconst 0))]

/-- A class `C` whose only declared base `Ext` is external (not discovered). -/
def declExternalBase : ClassDecl := ⟨"C", ["Ext"], []⟩

/-- A one-file project containing only `C(Ext)`. -/
def filesExternalBase : List (String × List ClassDecl) :=
  [("a.py", [declExternalBase])]

/-- The analyzer state after processing the `C(Ext)` project. -/
def stateExternalBase : CKState := processFiles none filesExternalBase

/-- A class `A` whose method `m` contains the qualified call `A.foo()`, so
the receiver identifier `A` is the class's own name. -/
def declSelfReceiver : ClassDecl :=
  ⟨"A", [], [.funcDef "m" [.sexprStmt (.pcall (.pattr (.pname "A") "foo") [])]]⟩

/-- The `ClassInfo` extracted for `A`. -/
def infoSelfReceiver : ClassInfo := buildClassInfo declSelfReceiver

/-- First declaration of the duplicated class name `Dup`, with base `Base1`. -/
def declDupOne : ClassDecl := ⟨"Dup", ["Base1"], []⟩

/-- Second declaration of the duplicated class name `Dup`, with base `Base2`
and one method. -/
def declDupTwo : ClassDecl := ⟨"Dup", ["Base2"], [.funcDef "m" [.spass]]⟩

/-- A class with two methods sharing the attribute `x` and one isolated
method `c`, used to instantiate the LCOM4 claim. -/
def infoLcomW : ClassInfo :=
  ⟨"W", [], ["a", "b", "c"], [],
    [("a", []), ("b", []), ("c", [])],
    [("a", ["x"]), ("b", ["x"]), ("c", ["z"])],
    [], [("a", 1), ("b", 1), ("c", 1)]⟩

/-- An all-zero metric record. -/
def zeroRec : CombinedClassMetrics := ⟨0, 0, 0, 0, 0, 0, 0⟩

/-! ## Helper lemmas about the combine.py embedding -/

theorem CombinedClassMetrics.ofFun_get (c : CombinedClassMetrics) :
    CombinedClassMetrics.ofFun c.get = c := by
  cases c
  rfl

theorem CombinedClassMetrics.get_ofFun (f : Metric → ℚ) (m : Metric) :
    (CombinedClassMetrics.ofFun f).get m = f m := by
  cases m <;> rfl

theorem weightAcc_eq (cd : CombinedClassMetrics) (sums : Metric → ℚ) :
    ∀ (l : List Metric) (a : ℚ) (n : Nat),
    weightAcc cd sums l (a, n) =
      (a + ((l.filter (fun m => decide (sums m ≠ 0))).map
              (fun m => cd.get m / sums m)).sum,
       n + (l.filter (fun m => decide (sums m ≠ 0))).length) := by
  intro l
  induction l with
  | nil => intro a n; simp [weightAcc]
  | cons m ms ih =>
    intro a n
    by_cases h : sums m = 0
    · have hfil : (m :: ms).filter (fun m => decide (sums m ≠ 0)) =
          ms.filter (fun m => decide (sums m ≠ 0)) := by
        simp [List.filter_cons, h]
      simp only [weightAcc, List.foldl_cons, if_pos h] at *
      rw [hfil]
      exact ih a n
    · have hfil : (m :: ms).filter (fun m => decide (sums m ≠ 0)) =
          m :: ms.filter (fun m => decide (sums m ≠ 0)) := by
        simp [List.filter_cons, h]
      simp only [weightAcc, List.foldl_cons, if_neg h] at *
      rw [hfil, ih (a + cd.get m / sums m) (n + 1)]
      simp [add_assoc, add_comm, add_left_comm]

theorem avgWeight_eq_specWeight (s : ClassSummary) (cd : CombinedClassMetrics)
    (target : Metric) : avgWeight s cd target = specWeight s cd target := by
  unfold avgWeight specWeight
  rw [weightAcc_eq]
  have hval : ((ckMetricsList.filter (fun m => decide (m ≠ target))).filter
      (fun m => decide (metricSum s m ≠ 0))) = validOthers s target := rfl
  simp only [hval, zero_add, Nat.zero_add]
  rcases h : validOthers s target with _ | ⟨v, vs⟩
  · simp
  · simp [List.isEmpty, Nat.succ_pos]

theorem validOthers_eq_nil_of_zero_sums (s : ClassSummary)
    (h : ∀ m, metricSum s m = 0) (t : Metric) : validOthers s t = [] := by
  unfold validOthers
  apply List.filter_eq_nil_iff.mpr
  intro a _
  simp [h a]

theorem avgWeight_one_of_zero_sums (s : ClassSummary)
    (h : ∀ m, metricSum s m = 0) (cd : CombinedClassMetrics) (t : Metric) :
    avgWeight s cd t = 1 := by
  rw [avgWeight_eq_specWeight]
  unfold specWeight
  rw [validOthers_eq_nil_of_zero_sums s h t]
  rfl

/-- C5: for every class and every target metric, the weighted value produced
by `combine_metrics` equals the original value times the mean, over all other
metrics with nonzero project-wide sum, of the class-share ratios, with the
weight defaulting to 1 when no valid other metric remains. -/
theorem combine_metrics_matches_spec_weight (s : ClassSummary) :
    combine_metrics s = s.map (fun kv =>
      (kv.1, CombinedClassMetrics.ofFun
        (fun t => kv.2.get t * specWeight s kv.2 t))) := by
  unfold combine_metrics
  apply List.map_congr_left
  intro kv _
  have : (fun t => kv.2.get t * avgWeight s kv.2 t)
      = (fun t => kv.2.get t * specWeight s kv.2 t) := by
    funext t
    rw [avgWeight_eq_specWeight]
  rw [this]

/-- C4: on a project where every metric's project-wide sum is 0, every other
metric is skipped, the weight defaults to 1, and `combine_metrics` returns
every class's original values unchanged (no division by zero occurs). -/
theorem combine_metrics_id_of_zero_sums (s : ClassSummary)
    (h : ∀ m, metricSum s m = 0) : combine_metrics s = s := by
  unfold combine_metrics
  have hone : ∀ kv : String × CombinedClassMetrics,
      (kv.1, CombinedClassMetrics.ofFun
        (fun t => kv.2.get t * avgWeight s kv.2 t)) = kv := by
    intro kv
    have hw : (fun t => kv.2.get t * avgWeight s kv.2 t) = kv.2.get := by
      funext t
      rw [avgWeight_one_of_zero_sums s h, mul_one]
    rw [hw, CombinedClassMetrics.ofFun_get]
  calc s.map (fun kv => (kv.1, CombinedClassMetrics.ofFun
          (fun t => kv.2.get t * avgWeight s kv.2 t)))
      = s.map id := List.map_congr_left (fun kv _ => hone kv)
    _ = s := List.map_id s

/-- Witness for C4 at a concrete one-class project with all-zero metrics. -/
theorem combine_metrics_id_of_zero_sums_witness :
    (∀ m, metricSum [("A", zeroRec)] m = 0)
    ∧ combine_metrics [("A", zeroRec)] = [("A", zeroRec)] := by
  have hz : ∀ m, metricSum [("A", zeroRec)] m = 0 := by
    intro m
    cases m <;> simp [metricSum, zeroRec, CombinedClassMetrics.get]
  exact ⟨hz, combine_metrics_id_of_zero_sums _ hz⟩

/-- C6: for every metric, the combined weighted project summary is the sum
over all classes of that class's already-weighted value (a total, not divided
by the class count). -/
theorem weighted_combined_is_sum (s : ClassSummary) (m : Metric) :
    (calculate_weighted_metrics_combined (combine_metrics s)).get m
      = ((combine_metrics s).map (fun kv => kv.2.get m)).sum
    ∧ (calculate_weighted_metrics_combined (combine_metrics s)).get m
      = (s.map (fun kv => kv.2.get m * specWeight s kv.2 m)).sum := by
  have h1 : (calculate_weighted_metrics_combined (combine_metrics s)).get m
      = ((combine_metrics s).map (fun kv => kv.2.get m)).sum := by
    cases m <;> rfl
  refine ⟨h1, ?_⟩
  rw [h1, combine_metrics_matches_spec_weight]
  rw [List.map_map]
  congr 1
  apply List.map_congr_left
  intro kv _
  simp [CombinedClassMetrics.get_ofFun]

theorem statisticsMean_isSome {l : List ℚ} (h : l.isEmpty = false) :
    (statisticsMean l).isSome = true := by
  simp [statisticsMean, h]

theorem statisticsMedian_isSome {l : List ℚ} (h : l.isEmpty = false) :
    (statisticsMedian l).isSome = true := by
  unfold statisticsMedian
  rw [h]
  simp only [Bool.false_eq_true, if_false]
  split <;> rfl

/-- C2 counterexample: on a zero-class project both the mean and the median
summary raise (`statistics.mean`/`statistics.median` of empty data), so the
aggregation engine does not return a defined result there. -/
theorem mean_median_raise_on_empty :
    calculate_mean_metrics [] = none ∧ calculate_median_metrics [] = none :=
  ⟨rfl, rfl⟩

/-- C2 amended: on a zero-class project the weighting model and the combined
weighted summary return defined empty/zero results, but the mean and the
median summaries raise; both are defined as soon as one class exists. -/
theorem aggregation_empty_behavior :
    combine_metrics ([] : ClassSummary) = []
    ∧ calculate_weighted_metrics_combined ([] : ClassSummary) = zeroRec
    ∧ calculate_mean_metrics ([] : ClassSummary) = none
    ∧ calculate_median_metrics ([] : ClassSummary) = none
    ∧ (∀ s : ClassSummary, s ≠ [] →
        (calculate_mean_metrics s).isSome = true
        ∧ (calculate_median_metrics s).isSome = true) := by
  refine ⟨rfl, rfl, rfl, rfl, ?_⟩
  intro s hs
  have hne : ∀ f : String × CombinedClassMetrics → ℚ,
      (s.map f).isEmpty = false := by
    intro f
    rcases s with _ | ⟨a, tl⟩
    · exact absurd rfl hs
    · rfl
  constructor
  · unfold calculate_mean_metrics
    obtain ⟨q1, e1⟩ := Option.isSome_iff_exists.mp (statisticsMean_isSome (hne _))
    obtain ⟨q2, e2⟩ := Option.isSome_iff_exists.mp (statisticsMean_isSome (hne _))
    obtain ⟨q3, e3⟩ := Option.isSome_iff_exists.mp (statisticsMean_isSome (hne _))
    obtain ⟨q4, e4⟩ := Option.isSome_iff_exists.mp (statisticsMean_isSome (hne _))
    obtain ⟨q5, e5⟩ := Option.isSome_iff_exists.mp (statisticsMean_isSome (hne _))
    obtain ⟨q6, e6⟩ := Option.isSome_iff_exists.mp (statisticsMean_isSome (hne _))
    obtain ⟨q7, e7⟩ := Option.isSome_iff_exists.mp (statisticsMean_isSome (hne _))
    rw [e1, e2, e3, e4, e5, e6, e7]
    rfl
  · unfold calculate_median_metrics
    obtain ⟨q1, e1⟩ := Option.isSome_iff_exists.mp (statisticsMedian_isSome (hne _))
    obtain ⟨q2, e2⟩ := Option.isSome_iff_exists.mp (statisticsMedian_isSome (hne _))
    obtain ⟨q3, e3⟩ := Option.isSome_iff_exists.mp (statisticsMedian_isSome (hne _))
    obtain ⟨q4, e4⟩ := Option.isSome_iff_exists.mp (statisticsMedian_isSome (hne _))
    obtain ⟨q5, e5⟩ := Option.isSome_iff_exists.mp (statisticsMedian_isSome (hne _))
    obtain ⟨q6, e6⟩ := Option.isSome_iff_exists.mp (statisticsMedian_isSome (hne _))
    obtain ⟨q7, e7⟩ := Option.isSome_iff_exists.mp (statisticsMedian_isSome (hne _))
    rw [e1, e2, e3, e4, e5, e6, e7]
    rfl

/-- Witness for the amended C2 at a concrete one-class project. -/
theorem aggregation_empty_behavior_witness :
    ([("A", zeroRec)] : ClassSummary) ≠ []
    ∧ (calculate_mean_metrics [("A", zeroRec)]).isSome = true
    ∧ (calculate_median_metrics [("A", zeroRec)]).isSome = true :=
  ⟨by simp, (aggregation_empty_behavior.2.2.2.2 [("A", zeroRec)] (by simp))⟩

theorem mem_dictInsert {α : Type} {l : List (String × α)} {k : String}
    {v : α} {p : String × α} (hp : p ∈ dictInsert l k v) :
    p ∈ l ∨ p = (k, v) := by
  unfold dictInsert at hp
  split at hp
  · obtain ⟨kv, hkv, heq⟩ := List.mem_map.mp hp
    by_cases hk : (kv.1 == k) = true
    · right
      rw [if_pos hk] at heq
      exact heq.symm
    · left
      rw [if_neg hk] at heq
      exact heq ▸ hkv
  · rcases List.mem_append.mp hp with h | h
    · exact Or.inl h
    · right
      simpa using h

theorem processBodyItem_complexity_ge_one (item : ClassBodyItem)
    (ci : ClassInfo) (h : ∀ p ∈ ci.method_complexity, 1 ≤ p.2) :
    ∀ p ∈ (processBodyItem ci item).method_complexity, 1 ≤ p.2 := by
  cases item with
  | funcDef mname mbody =>
      intro p hp
      rcases mem_dictInsert hp with hmem | hnew
      · exact h p hmem
      · rw [hnew]
        exact Nat.le_add_right 1 _
  | assignItem targets => exact h
  | annAssignItem target => exact h

theorem buildClassInfo_complexity_ge_one (d : ClassDecl) :
    ∀ p ∈ (buildClassInfo d).method_complexity, 1 ≤ p.2 := by
  unfold buildClassInfo
  have : ∀ (items : List ClassBodyItem) (ci : ClassInfo),
      (∀ p ∈ ci.method_complexity, 1 ≤ p.2) →
      ∀ p ∈ (items.foldl processBodyItem ci).method_complexity, 1 ≤ p.2 := by
    intro items
    induction items with
    | nil => intro ci h; exact h
    | cons it its ih =>
        intro ci h
        exact ih _ (processBodyItem_complexity_ge_one it ci h)
  exact this d.body _ (by intro p hp; cases hp)

theorem length_le_sum_getD {mc : List (String × Nat)}
    (h : ∀ p ∈ mc, 1 ≤ p.2) (l : List String) :
    l.length ≤ (l.map (fun m => (dictLookup mc m).getD 1)).sum := by
  induction l with
  | nil => simp
  | cons a tl ih =>
      simp only [List.map_cons, List.sum_cons, List.length_cons]
      have hhead : 1 ≤ (dictLookup mc a).getD 1 := by
        unfold dictLookup
        cases hf : mc.find? (fun kv => kv.1 == a) with
        | none => simp
        | some kv =>
            simpa using h kv (List.mem_of_find?_eq_some hf)
      omega

/-- C7: for every class extracted from a declaration, WMC is the sum of the
per-method complexities with a default of 1 for an unrecorded method, and is
therefore at least the number of methods. -/
theorem wmc_is_sum_and_at_least_method_count (d : ClassDecl) :
    _calculate_wmc (buildClassInfo d)
      = ((buildClassInfo d).methods.map
          (fun m => (dictLookup (buildClassInfo d).method_complexity m).getD 1)).sum
    ∧ (buildClassInfo d).methods.length ≤ _calculate_wmc (buildClassInfo d) :=
  ⟨rfl, length_le_sum_getD (buildClassInfo_complexity_ge_one d) _⟩

/-- C9: cyclomatic complexity starts at base 1, an `if` statement adds 1 on
top of its parts, a boolean operation over N operands adds N - 1, and the
body `if x > 0 and y > 0: return 1` / `return 0` has complexity 3. -/
theorem complexity_if_boolop_rules :
    (∀ body : List PStmt, 1 ≤ methodComplexity body)
    ∧ (∀ (t : PExpr) (b e rest : List PStmt),
        stmtsComplexity (PStmt.sif t b e :: rest)
          = 1 + exprComplexity t + stmtsComplexity b + stmtsComplexity e
              + stmtsComplexity rest)
    ∧ (∀ (op : BoolOpKind) (vs : List PExpr),
        exprComplexity (PExpr.boolOp op vs)
          = (vs.length - 1) + exprsComplexity vs)
    ∧ methodComplexity ifAndBody = 3 := by
  refine ⟨?_, ?_, ?_, by decide⟩
  · intro body
    exact Nat.le_add_right 1 _
  · intro t b e rest
    simp [stmtsComplexity, stmtComplexity]
  · intro op vs
    rfl

/-- C3 counterexample: in class `A`, the qualified call `A.foo()` makes the
receiver identifier `A` a member of `called_classes`, and `_calculate_cbo`
counts it — the class itself appears in its own coupling set, so CBO is 1
where the claim's set (which never counts the class itself) has size 0. -/
theorem cbo_self_receiver_counterexample :
    _calculate_cbo ["A"] "A" infoSelfReceiver = 1
    ∧ (cboClaimSet ["A"] "A" infoSelfReceiver).card = 0 :=
  ⟨by decide, by decide⟩

/-- C3 amended: CBO equals the size of the union of the declared bases, the
call receivers, the called names matching a discovered class and the
attribute names matching a discovered class, minus `'object'` and `'self'`,
where the class-itself exclusion applies only to the called-name and
attribute-name matches (bases and call receivers naming the class itself are
counted). -/
theorem cbo_counts_amended_set (classNames : List String) (cname : String)
    (ci : ClassInfo) :
    _calculate_cbo classNames cname ci = (cboAmendedSet classNames cname ci).card := by
  unfold _calculate_cbo
  have hnd : (((ci.bases ++ ci.called_classes
      ++ ((ci.method_calls.map (fun kv => kv.2)).flatten).filter
          (fun c => classNames.contains c && c != cname)
      ++ ci.attributes.filter
          (fun a => classNames.contains a && a != cname)).dedup).filter
        (fun c => c != "object" && c != "self")).Nodup :=
    (List.nodup_dedup _).filter _
  rw [← List.toFinset_card_of_nodup hnd]
  congr 1
  apply Finset.ext
  intro x
  simp only [cboAmendedSet, allCalledNames, List.mem_toFinset, List.mem_filter,
    List.mem_dedup, List.mem_append, Finset.mem_sdiff, Finset.mem_union,
    Finset.mem_filter, Finset.mem_insert, Finset.mem_singleton,
    Bool.and_eq_true, bne_iff_ne, List.elem_iff]
  tauto

theorem anyCongr {l : List String} {p q : String → Bool}
    (h : ∀ x ∈ l, p x = q x) : l.any p = l.any q := by
  induction l with
  | nil => rfl
  | cons a tl ih =>
      simp only [List.any_cons]
      rw [h a (List.mem_cons_self a tl),
        ih (fun x hx => h x (List.mem_cons_of_mem a hx))]

theorem sharesAttr_comm (ci : ClassInfo) (v w : String) :
    sharesAttr ci v w = sharesAttr ci w v := by
  unfold sharesAttr
  rw [Bool.eq_iff_iff]
  simp only [List.any_eq_true, List.elem_iff]
  constructor
  · rintro ⟨a, h1, h2⟩
    exact ⟨a, h2, h1⟩
  · rintro ⟨a, h1, h2⟩
    exact ⟨a, h2, h1⟩

theorem lcomAdj_agree (ci : ClassInfo) (v w : String)
    (hv : v ∈ ci.methods) (hw : w ∈ ci.methods) (hne : v ≠ w) :
    lcomAdjCode ci v w = lcomAdjSpec ci v w := by
  unfold lcomAdjCode lcomAdjSpec
  have hbne : (v != w) = true := by simp [hne]
  have hcv : ci.methods.contains v = true := by simp [List.elem_iff]; exact hv
  have hcw : ci.methods.contains w = true := by simp [List.elem_iff]; exact hw
  rw [hbne, hcv, hcw, sharesAttr_comm ci w v]
  simp [Bool.or_assoc, Bool.or_comm, Bool.or_left_comm]

theorem linkedToComp_congr {adj adj' : String → String → Bool} {v : String}
    {c : List String}
    (h : ∀ w ∈ c, adj v w = adj' v w ∧ adj w v = adj' w v) :
    linkedToComp adj v c = linkedToComp adj' v c := by
  unfold linkedToComp
  apply anyCongr
  intro w hw
  rw [(h w hw).1, (h w hw).2]

theorem insertNode_congr {adj adj' : String → String → Bool}
    {comps : List (List String)} {v : String}
    (h : ∀ c ∈ comps, ∀ w ∈ c, adj v w = adj' v w ∧ adj w v = adj' w v) :
    insertNode adj comps v = insertNode adj' comps v := by
  unfold insertNode
  have hfil : comps.filter (linkedToComp adj v)
      = comps.filter (linkedToComp adj' v) :=
    List.filter_congr (fun c hc => linkedToComp_congr (h c hc))
  have hfil2 : comps.filter (fun c => !(linkedToComp adj v c))
      = comps.filter (fun c => !(linkedToComp adj' v c)) :=
    List.filter_congr (fun c hc => by rw [linkedToComp_congr (h c hc)])
  rw [hfil, hfil2]

theorem mem_insertNode {adj : String → String → Bool}
    {comps : List (List String)} {v x : String} {c : List String}
    (hc : c ∈ insertNode adj comps v) (hx : x ∈ c) :
    x = v ∨ ∃ c' ∈ comps, x ∈ c' := by
  unfold insertNode at hc
  rcases List.mem_cons.mp hc with h | h
  · subst h
    rcases List.mem_cons.mp hx with h1 | h1
    · exact Or.inl h1
    · obtain ⟨c', hc', hxc'⟩ := List.mem_flatten.mp h1
      exact Or.inr ⟨c', (List.mem_filter.mp hc').1, hxc'⟩
  · exact Or.inr ⟨c, (List.mem_filter.mp h).1, hx⟩

theorem foldl_insertNode_congr (adj adj' : String → String → Bool)
    (S : List String)
    (hagree : ∀ v w, v ∈ S → w ∈ S → v ≠ w → adj v w = adj' v w) :
    ∀ (rest : List String) (comps : List (List String)),
    (∀ v ∈ rest, v ∈ S) →
    (∀ c ∈ comps, ∀ w ∈ c, w ∈ S) →
    (∀ v ∈ rest, ∀ c ∈ comps, ∀ w ∈ c, v ≠ w) →
    rest.Nodup →
    rest.foldl (insertNode adj) comps = rest.foldl (insertNode adj') comps := by
  intro rest
  induction rest with
  | nil => intro comps _ _ _ _; rfl
  | cons v tl ih =>
      intro comps hrestS hcompsS hdisj hnd
      simp only [List.foldl_cons]
      have hvS : v ∈ S := hrestS v (List.mem_cons_self v tl)
      have hins : insertNode adj comps v = insertNode adj' comps v := by
        apply insertNode_congr
        intro c hc w hw
        have hwS : w ∈ S := hcompsS c hc w hw
        have hvw : v ≠ w := hdisj v (List.mem_cons_self v tl) c hc w hw
        exact ⟨hagree v w hvS hwS hvw, hagree w v hwS hvS (Ne.symm hvw)⟩
      rw [hins]
      apply ih
      · intro u hu
        exact hrestS u (List.mem_cons_of_mem v hu)
      · intro c hc w hw
        rcases mem_insertNode hc hw with h | ⟨c', hc', hw'⟩
        · exact h ▸ hvS
        · exact hcompsS c' hc' w hw'
      · intro u hu c hc w hw
        rcases mem_insertNode hc hw with h | ⟨c', hc', hw'⟩
        · subst h
          exact fun he => (List.nodup_cons.mp hnd).1 (he ▸ hu)
        · exact hdisj u (List.mem_cons_of_mem v hu) c' hc' w hw'
      · exact (List.nodup_cons.mp hnd).2

/-- C8: LCOM4 is the number of connected components of the undirected graph
on the class's methods whose edges link distinct methods with intersecting
self-attribute sets or a call from one to the other within the method set; a
class with zero methods has LCOM4 0, and the normalized form is
`(LCOM4 - 1) / (methodCount - 1)` for more than one method and 0.0
otherwise. -/
theorem lcom4_components_and_normalization (ci : ClassInfo)
    (h : ci.methods.Nodup) :
    _calculate_lcom4 ci = componentCount (lcomAdjSpec ci) ci.methods
    ∧ (ci.methods = [] → _calculate_lcom4 ci = 0)
    ∧ (1 < ci.methods.length →
        _calculate_normalized_lcom4 ci (_calculate_lcom4 ci)
          = ((_calculate_lcom4 ci : ℚ) - 1) / ((ci.methods.length : ℚ) - 1))
    ∧ (ci.methods.length ≤ 1 →
        _calculate_normalized_lcom4 ci (_calculate_lcom4 ci) = 0) := by
  refine ⟨?_, ?_, ?_, ?_⟩
  · unfold _calculate_lcom4
    by_cases he : ci.methods.isEmpty
    · rw [if_pos he, List.isEmpty_iff.mp he]
      rfl
    · rw [if_neg he]
      unfold componentCount componentsOf
      congr 1
      apply foldl_insertNode_congr (lcomAdjCode ci) (lcomAdjSpec ci) ci.methods
      · intro v w hv hw hne
        exact lcomAdj_agree ci v w hv hw hne
      · intro v hv
        exact hv
      · intro c hc w hw
        cases hc
      · intro v _ c hc
        cases hc
      · exact h
  · intro hnil
    unfold _calculate_lcom4
    rw [hnil]
    rfl
  · intro hlt
    unfold _calculate_normalized_lcom4
    rw [if_neg (by omega)]
  · intro hle
    unfold _calculate_normalized_lcom4
    rw [if_pos hle]

/-- Witness for C8 at a concrete three-method class (two methods share an
attribute, one is isolated). -/
theorem lcom4_components_witness :
    infoLcomW.methods.Nodup
    ∧ _calculate_lcom4 infoLcomW = componentCount (lcomAdjSpec infoLcomW)
        infoLcomW.methods
    ∧ _calculate_lcom4 infoLcomW = 2 :=
  ⟨by decide, (lcom4_components_and_normalization infoLcomW (by decide)).1,
    by decide⟩

theorem dictLookup_insert_self {α : Type} (l : List (String × α)) (k : String)
    (v : α) : dictLookup (dictInsert l k v) k = some v := by
  unfold dictInsert
  by_cases hany : l.any (fun kv => kv.1 == k) = true
  · rw [if_pos hany]
    induction l with
    | nil => cases hany
    | cons kv tl ih =>
        simp only [List.map_cons]
        unfold dictLookup
        by_cases hk : (kv.1 == k) = true
        · rw [if_pos hk]
          simp [List.find?_cons]
        · rw [if_neg hk]
          simp only [List.find?_cons, hk]
          have htl : tl.any (fun kv => kv.1 == k) = true := by
            rcases List.any_eq_true.mp hany with ⟨x, hx, hpx⟩
            rcases List.mem_cons.mp hx with rfl | hx'
            · exact absurd hpx hk
            · exact List.any_eq_true.mpr ⟨x, hx', hpx⟩
          exact ih htl
  · rw [if_neg hany]
    unfold dictLookup
    have hfind : l.find? (fun kv => kv.1 == k) = none := by
      apply List.find?_eq_none.mpr
      intro kv hkv
      intro hp
      exact hany (List.any_eq_true.mpr ⟨kv, hkv, hp⟩)
    rw [List.find?_append, hfind]
    simp [List.find?_cons]

theorem dictLookup_mapWithKey {α β : Type} (g : String → α → β) (k : String) :
    ∀ l : List (String × α),
    dictLookup (l.map (fun kv => (kv.1, g kv.1 kv.2))) k
      = (dictLookup l k).map (g k) := by
  intro l
  induction l with
  | nil => rfl
  | cons kv tl ih =>
      unfold dictLookup
      simp only [List.map_cons, List.find?_cons]
      by_cases hk : (kv.1 == k) = true
      · have hkeq : kv.1 = k := by simpa using hk
        simp only [hk, cond_true]
        subst hkeq
        simp
      · simp only [hk, cond_false]
        exact ih

theorem addEdge_mem_edges (s : CKState) (u v : String) :
    (u, v) ∈ (s.addEdge u v).graph_edges := by
  unfold CKState.addEdge
  by_cases h : s.graph_edges.contains (u, v) = true
  · rw [if_pos h]
    simpa using h
  · rw [if_neg h]
    simp

theorem addEdge_edges_mono {s : CKState} {e : String × String}
    (h : e ∈ s.graph_edges) (u v : String) :
    e ∈ (s.addEdge u v).graph_edges := by
  unfold CKState.addEdge
  split
  · exact h
  · exact List.mem_append_left _ h

theorem addNode_mem (ns : List String) (v : String) : v ∈ addNode ns v := by
  unfold addNode
  by_cases h : ns.contains v = true
  · rw [if_pos h]
    simpa using h
  · rw [if_neg h]
    simp

theorem addNode_mono {ns : List String} {x : String} (h : x ∈ ns)
    (v : String) : x ∈ addNode ns v := by
  unfold addNode
  split
  · exact h
  · exact List.mem_append_left _ h

theorem addEdge_node_left (s : CKState) (u v : String) :
    u ∈ (s.addEdge u v).graph_nodes :=
  addNode_mono (addNode_mem s.graph_nodes u) v

theorem addEdge_nodes_mono {s : CKState} {x : String} (h : x ∈ s.graph_nodes)
    (u v : String) : x ∈ (s.addEdge u v).graph_nodes :=
  addNode_mono (addNode_mono h u) v

theorem basesFold_edges_mono (n : String) :
    ∀ (bases : List String) (s : CKState) (e : String × String),
    e ∈ s.graph_edges → e ∈ (basesFold n bases s).graph_edges := by
  intro bases
  induction bases with
  | nil => intro s e h; exact h
  | cons b tl ih =>
      intro s e h
      unfold basesFold
      simp only [List.foldl_cons]
      by_cases hb : (b == "object") = true
      · rw [if_pos hb]
        exact ih s e h
      · rw [if_neg hb]
        exact ih _ e (addEdge_edges_mono h b n)

theorem basesFold_nodes_mono (n : String) :
    ∀ (bases : List String) (s : CKState) (x : String),
    x ∈ s.graph_nodes → x ∈ (basesFold n bases s).graph_nodes := by
  intro bases
  induction bases with
  | nil => intro s x h; exact h
  | cons b tl ih =>
      intro s x h
      unfold basesFold
      simp only [List.foldl_cons]
      by_cases hb : (b == "object") = true
      · rw [if_pos hb]
        exact ih s x h
      · rw [if_neg hb]
        exact ih _ x (addEdge_nodes_mono h b n)

theorem basesFold_mem_edge (n : String) :
    ∀ (bases : List String) (s : CKState) (b : String),
    b ∈ bases → b ≠ "object" → (b, n) ∈ (basesFold n bases s).graph_edges := by
  intro bases
  induction bases with
  | nil => intro s b h; cases h
  | cons b0 tl ih =>
      intro s b hmem hne
      unfold basesFold
      simp only [List.foldl_cons]
      rcases List.mem_cons.mp hmem with rfl | htl
      · rw [if_neg (by simpa using hne)]
        exact basesFold_edges_mono n tl _ _ (addEdge_mem_edges s b n)
      · by_cases hb : (b0 == "object") = true
        · rw [if_pos hb]
          exact ih s b htl hne
        · rw [if_neg hb]
          exact ih _ b htl hne

theorem basesFold_mem_node (n : String) :
    ∀ (bases : List String) (s : CKState) (b : String),
    b ∈ bases → b ≠ "object" → b ∈ (basesFold n bases s).graph_nodes := by
  intro bases
  induction bases with
  | nil => intro s b h; cases h
  | cons b0 tl ih =>
      intro s b hmem hne
      unfold basesFold
      simp only [List.foldl_cons]
      rcases List.mem_cons.mp hmem with rfl | htl
      · rw [if_neg (by simpa using hne)]
        exact basesFold_nodes_mono n tl _ _ (addEdge_node_left s b n)
      · by_cases hb : (b0 == "object") = true
        · rw [if_pos hb]
          exact ih s b htl hne
        · rw [if_neg hb]
          exact ih _ b htl hne

theorem basesFold_classes (n : String) :
    ∀ (bases : List String) (s : CKState),
    (basesFold n bases s).classes = s.classes
    ∧ (basesFold n bases s).file_paths = s.file_paths := by
  intro bases
  induction bases with
  | nil => intro s; exact ⟨rfl, rfl⟩
  | cons b tl ih =>
      intro s
      unfold basesFold
      simp only [List.foldl_cons]
      by_cases hb : (b == "object") = true
      · rw [if_pos hb]
        exact ih s
      · rw [if_neg hb]
        exact ih _

theorem processClassDecl_none_unfold (f : String) (s : CKState) (d : ClassDecl) :
    processClassDecl none f s d
      = basesFold d.name d.bases
          { s with
            file_paths := dictInsert s.file_paths d.name f
            classes := dictInsert s.classes d.name (buildClassInfo d)
            graph_nodes := addNode s.graph_nodes d.name } := by
  unfold processClassDecl basesFold
  rfl

theorem mem_dedup_length_pos {l : List String} {x : String} (h : x ∈ l) :
    1 ≤ l.dedup.length := by
  have : x ∈ l.dedup := List.mem_dedup.mpr h
  have hne : l.dedup ≠ [] := List.ne_nil_of_mem this
  have := List.length_pos.mpr hne
  omega

theorem noc_pos_of_edge {s : CKState} {b n : String}
    (hed : (b, n) ∈ s.graph_edges) (hnode : b ∈ s.graph_nodes) :
    1 ≤ _calculate_noc s b := by
  unfold _calculate_noc
  rw [if_pos (by simpa [List.elem_iff] using hnode)]
  apply mem_dedup_length_pos
  apply List.mem_map.mpr
  refine ⟨(b, n), ?_, rfl⟩
  apply List.mem_filter.mpr
  exact ⟨hed, by simp⟩

/-- C10: when two class declarations share a name, the class table, the
name-to-file index and the class summary all retain only the most recently
processed declaration's record, while the inheritance edges added for the
earlier declaration's bases persist in the graph and keep contributing to
NOC (and hence DIT) results. -/
theorem duplicate_class_retention (builtins : List String) (s : CKState)
    (d1 d2 : ClassDecl) (f1 f2 : String) (hname : d1.name = d2.name) :
    dictLookup (processClassDecl none f2 (processClassDecl none f1 s d1) d2).classes d1.name
      = some (buildClassInfo d2)
    ∧ dictLookup (processClassDecl none f2 (processClassDecl none f1 s d1) d2).file_paths d1.name
      = some f2
    ∧ dictLookup (class_summary builtins (processClassDecl none f2 (processClassDecl none f1 s d1) d2)) d1.name
      = some (_calculate_class_metrics builtins
          (processClassDecl none f2 (processClassDecl none f1 s d1) d2) d1.name
          (buildClassInfo d2))
    ∧ (∀ b ∈ d1.bases, b ≠ "object" →
        (b, d1.name) ∈ (processClassDecl none f2 (processClassDecl none f1 s d1) d2).graph_edges
        ∧ 1 ≤ _calculate_noc (processClassDecl none f2 (processClassDecl none f1 s d1) d2) b) := by
  have hcls : ∀ (f : String) (st : CKState) (d : ClassDecl),
      (processClassDecl none f st d).classes
          = dictInsert st.classes d.name (buildClassInfo d)
      ∧ (processClassDecl none f st d).file_paths
          = dictInsert st.file_paths d.name f := by
    intro f st d
    rw [processClassDecl_none_unfold]
    exact ⟨(basesFold_classes d.name d.bases _).1,
      (basesFold_classes d.name d.bases _).2⟩
  have h1 : dictLookup (processClassDecl none f2 (processClassDecl none f1 s d1) d2).classes d1.name
      = some (buildClassInfo d2) := by
    rw [hname, (hcls f2 _ d2).1]
    exact dictLookup_insert_self _ _ _
  have h2 : dictLookup (processClassDecl none f2 (processClassDecl none f1 s d1) d2).file_paths d1.name
      = some f2 := by
    rw [hname, (hcls f2 _ d2).2]
    exact dictLookup_insert_self _ _ _
  refine ⟨h1, h2, ?_, ?_⟩
  · unfold class_summary
    rw [dictLookup_mapWithKey (fun k ci => _calculate_class_metrics builtins
      (processClassDecl none f2 (processClassDecl none f1 s d1) d2) k ci) d1.name]
    rw [h1]
    rfl
  · intro b hb hbo
    have hedge1 : (b, d1.name) ∈ (processClassDecl none f1 s d1).graph_edges := by
      rw [processClassDecl_none_unfold]
      exact basesFold_mem_edge d1.name d1.bases _ b hb hbo
    have hnode1 : b ∈ (processClassDecl none f1 s d1).graph_nodes := by
      rw [processClassDecl_none_unfold]
      exact basesFold_mem_node d1.name d1.bases _ b hb hbo
    have hedge2 : (b, d1.name)
        ∈ (processClassDecl none f2 (processClassDecl none f1 s d1) d2).graph_edges := by
      rw [processClassDecl_none_unfold]
      exact basesFold_edges_mono d2.name d2.bases _ _ hedge1
    have hnode2 : b
        ∈ (processClassDecl none f2 (processClassDecl none f1 s d1) d2).graph_nodes := by
      rw [processClassDecl_none_unfold]
      apply basesFold_nodes_mono d2.name d2.bases
      exact addNode_mono hnode1 d2.name
    exact ⟨hedge2, noc_pos_of_edge hedge2 hnode2⟩

/-- Witness for C10 at two concrete declarations of the class name `Dup`. -/
theorem duplicate_class_retention_witness :
    declDupOne.name = declDupTwo.name
    ∧ dictLookup (processClassDecl none "two.py" (processClassDecl none "one.py" CKState.empty declDupOne) declDupTwo).classes declDupOne.name
      = some (buildClassInfo declDupTwo)
    ∧ ("Base1", declDupOne.name)
        ∈ (processClassDecl none "two.py" (processClassDecl none "one.py" CKState.empty declDupOne) declDupTwo).graph_edges
    ∧ 1 ≤ _calculate_noc (processClassDecl none "two.py" (processClassDecl none "one.py" CKState.empty declDupOne) declDupTwo) "Base1" := by
  have h := duplicate_class_retention [] CKState.empty declDupOne declDupTwo
    "one.py" "two.py" (by decide)
  have hb := h.2.2.2 "Base1" (by decide) (by decide)
  exact ⟨by decide, h.1, hb.1, hb.2⟩

theorem listMaxN_eq_none_iff : ∀ l : List Nat, listMaxN l = none ↔ l = [] := by
  intro l
  cases l with
  | nil => simp [listMaxN]
  | cons a tl =>
      simp only [listMaxN]
      cases listMaxN tl <;> simp

theorem listMaxN_mem : ∀ (l : List Nat) (n : Nat), listMaxN l = some n → n ∈ l := by
  intro l
  induction l with
  | nil => intro n h; cases h
  | cons a tl ih =>
      intro n h
      unfold listMaxN at h
      cases htl : listMaxN tl with
      | none =>
          rw [htl] at h
          cases h
          exact List.mem_cons_self a tl
      | some m =>
          rw [htl] at h
          cases h
          rcases max_choice a m with hm | hm
          · rw [hm]
            exact List.mem_cons_self a tl
          · rw [hm]
            exact List.mem_cons_of_mem a (ih m htl)

theorem listMaxN_le : ∀ (l : List Nat) (x : Nat), x ∈ l →
    ∃ M, listMaxN l = some M ∧ x ≤ M := by
  intro l
  induction l with
  | nil => intro x h; cases h
  | cons a tl ih =>
      intro x hx
      cases htl : listMaxN tl with
      | none =>
          have htlnil : tl = [] := (listMaxN_eq_none_iff tl).mp htl
          subst htlnil
          rcases List.mem_cons.mp hx with rfl | h
          · exact ⟨x, rfl, le_refl x⟩
          · cases h
      | some m =>
          refine ⟨max a m, ?_, ?_⟩
          · unfold listMaxN
            rw [htl]
          · rcases List.mem_cons.mp hx with rfl | h
            · exact le_max_left x m
            · obtain ⟨M, hM, hle⟩ := ih x h
              rw [htl] at hM
              have hMm : M = m := (Option.some.inj hM).symm
              subst hMm
              exact le_trans hle (le_max_right a M)

theorem foldl_max_le_acc (g : String → Nat) :
    ∀ (l : List String) (a : Nat), a ≤ l.foldl (fun acc r => max acc (g r)) a := by
  intro l
  induction l with
  | nil => intro a; exact le_refl a
  | cons r tl ih =>
      intro a
      exact le_trans (le_max_left a (g r)) (ih (max a (g r)))

theorem foldl_max_ge (g : String → Nat) :
    ∀ (l : List String) (a : Nat) (r : String), r ∈ l →
    g r ≤ l.foldl (fun acc x => max acc (g x)) a := by
  intro l
  induction l with
  | nil => intro a r h; cases h
  | cons r0 tl ih =>
      intro a r hr
      rcases List.mem_cons.mp hr with rfl | h
      · exact le_trans (le_max_right a (g r)) (foldl_max_le_acc g tl _)
      · exact ih _ r h

theorem foldl_max_cases (g : String → Nat) :
    ∀ (l : List String) (a : Nat),
    l.foldl (fun acc x => max acc (g x)) a = a
    ∨ ∃ r ∈ l, l.foldl (fun acc x => max acc (g x)) a = g r := by
  intro l
  induction l with
  | nil => intro a; exact Or.inl rfl
  | cons r0 tl ih =>
      intro a
      simp only [List.foldl_cons]
      rcases ih (max a (g r0)) with h | ⟨r, hr, hres⟩
      · rcases max_choice a (g r0) with hm | hm
        · exact Or.inl (h.trans hm)
        · exact Or.inr ⟨r0, List.mem_cons_self r0 tl, h.trans hm⟩
      · exact Or.inr ⟨r, List.mem_cons_of_mem r0 hr, hres⟩

theorem chain'_edge_to_last {edges : List (String × String)} :
    ∀ (p : List String) (c : String),
    List.Chain' (fun a b => (a, b) ∈ edges) p → p.getLast? = some c →
    2 ≤ p.length → ∃ x, (x, c) ∈ edges := by
  intro p
  induction p with
  | nil => intro c _ h; cases h
  | cons a q ih =>
      intro c hch hl hlen
      cases q with
      | nil => simp at hlen
      | cons b rest =>
          cases rest with
          | nil =>
              have hcb : c = b := by simpa using hl.symm
              subst hcb
              exact ⟨a, (List.chain'_cons.mp hch).1⟩
          | cons b2 rest2 =>
              apply ih c (List.chain'_cons.mp hch).2
              · rw [← List.getLast?_cons_cons]
                exact hl
              · simp

theorem path_mem_nodes {s : CKState} (hclosed : EdgesClosed s) :
    ∀ (p : List String) (r : String),
    List.Chain' (fun a b => (a, b) ∈ s.graph_edges) p → p.head? = some r →
    r ∈ s.graph_nodes → ∀ x ∈ p, x ∈ s.graph_nodes := by
  intro p
  induction p with
  | nil => intro r _ _ _ x hx; cases hx
  | cons a q ih =>
      intro r hch hh hrn x hx
      have har : a = r := by simpa using hh
      subst har
      rcases List.mem_cons.mp hx with rfl | hxq
      · exact hrn
      · cases q with
        | nil => cases hxq
        | cons b rest =>
            have hab : (a, b) ∈ s.graph_edges := (List.chain'_cons.mp hch).1
            have hbn : b ∈ s.graph_nodes := (hclosed _ hab).2
            exact ih b (List.chain'_cons.mp hch).2 rfl hbn x hxq

theorem nodup_length_le {p ns : List String} (hnd : p.Nodup)
    (hsub : ∀ x ∈ p, x ∈ ns) : p.length ≤ ns.length := by
  calc p.length = p.toFinset.card := (List.toFinset_card_of_nodup hnd).symm
    _ ≤ ns.toFinset.card := Finset.card_le_card
        (fun x hx => List.mem_toFinset.mpr (hsub x (List.mem_toFinset.mp hx)))
    _ ≤ ns.length := List.toFinset_card_le ns

theorem maxSimpleTo_sound (edges : List (String × String)) (target : String) :
    ∀ (fuel : Nat) (cur : String) (visited : List String) (n : Nat),
    cur ∉ visited →
    maxSimpleTo edges target cur visited fuel = some n →
    ∃ p : List String, List.Chain' (fun a b => (a, b) ∈ edges) p ∧ p.Nodup ∧
      (∀ x ∈ p, x ∉ visited) ∧ p.head? = some cur ∧ p.getLast? = some target ∧
      p.length = n + 1 := by
  intro fuel
  induction fuel with
  | zero =>
      intro cur visited n hcv h
      unfold maxSimpleTo at h
      by_cases hct : (cur == target) = true
      · rw [if_pos hct] at h
        have hn0 : n = 0 := by
          cases h
          rfl
        subst hn0
        have hcteq : cur = target := by simpa using hct
        exact ⟨[cur], by simp, by simp, by simpa using hcv, rfl,
          by simp [hcteq], rfl⟩
      · rw [if_neg hct] at h
        cases h
  | succ fuel ih =>
      intro cur visited n hcv h
      unfold maxSimpleTo at h
      by_cases hct : (cur == target) = true
      · rw [if_pos hct] at h
        have hn0 : n = 0 := by
          cases h
          rfl
        subst hn0
        have hcteq : cur = target := by simpa using hct
        exact ⟨[cur], by simp, by simp, by simpa using hcv, rfl,
          by simp [hcteq], rfl⟩
      · rw [if_neg hct] at h
        have hn := listMaxN_mem _ _ h
        obtain ⟨nxt, hnxt, hrec⟩ := List.mem_filterMap.mp hn
        obtain ⟨m, hm, hn1⟩ : ∃ m,
            maxSimpleTo edges target nxt (cur :: visited) fuel = some m
            ∧ n = m + 1 := by
          cases hr : maxSimpleTo edges target nxt (cur :: visited) fuel with
          | none =>
              rw [hr] at hrec
              cases hrec
          | some m =>
              rw [hr] at hrec
              exact ⟨m, rfl, by simpa using hrec.symm⟩
        obtain ⟨e, he, hee⟩ := List.mem_map.mp hnxt
        obtain ⟨e1, e2⟩ := e
        have hef := List.mem_filter.mp he
        have he1 : e1 = cur := by
          have := hef.2
          simp only [Bool.and_eq_true, beq_iff_eq] at this
          exact this.1
        have hnv : e2 ∉ cur :: visited := by
          have := hef.2
          simp only [Bool.and_eq_true, Bool.not_eq_eq_eq_not, Bool.not_true] at this
          intro hmem
          have hc : (cur :: visited).contains e2 = true := by
            simpa [List.elem_iff] using hmem
          rw [this.2] at hc
          cases hc
        subst he1
        simp only at hee
        subst hee
        obtain ⟨q, hq1, hq2, hq3, hq4, hq5, hq6⟩ :=
          ih e2 (e1 :: visited) m hnv hm
        have hqne : q ≠ [] := by
          intro hq
          rw [hq] at hq4
          cases hq4
        refine ⟨e1 :: q, ?_, ?_, ?_, rfl, ?_, ?_⟩
        · apply List.chain'_cons'.mpr
          constructor
          · intro y hy
            rw [hq4] at hy
            have hye : e2 = y := by simpa using hy
            rw [← hye]
            exact hef.1
          · exact hq1
        · apply List.nodup_cons.mpr
          refine ⟨?_, hq2⟩
          intro hcurq
          exact (hq3 e1 hcurq) (List.mem_cons_self e1 visited)
        · intro x hx
          rcases List.mem_cons.mp hx with rfl | hxq
          · exact hcv
          · exact fun hxv => (hq3 x hxq) (List.mem_cons_of_mem e1 hxv)
        · cases q with
          | nil => exact absurd rfl hqne
          | cons b rest =>
              rw [List.getLast?_cons_cons]
              exact hq5
        · simp only [List.length_cons, hq6, hn1]

theorem maxSimpleTo_complete (edges : List (String × String)) (target : String) :
    ∀ (p : List String) (fuel : Nat) (cur : String) (visited : List String),
    List.Chain' (fun a b => (a, b) ∈ edges) p → p.Nodup →
    (∀ x ∈ p, x ∉ visited) → p.head? = some cur → p.getLast? = some target →
    p.length ≤ fuel + 1 →
    ∃ n, maxSimpleTo edges target cur visited fuel = some n
      ∧ p.length - 1 ≤ n := by
  intro p
  induction p with
  | nil =>
      intro fuel cur visited _ _ _ hh _ _
      cases hh
  | cons a q ih =>
      intro fuel cur visited hch hnd havoid hh hl hlen
      have hac : a = cur := by simpa using hh
      subst hac
      cases q with
      | nil =>
          have hat : a = target := by simpa using hl
          cases fuel with
          | zero =>
              refine ⟨0, ?_, by simp⟩
              unfold maxSimpleTo
              rw [if_pos (by simp [hat])]
          | succ f =>
              refine ⟨0, ?_, by simp⟩
              unfold maxSimpleTo
              rw [if_pos (by simp [hat])]
      | cons b rest =>
          have hlq : (b :: rest).getLast? = some target := by
            rw [← List.getLast?_cons_cons]
            exact hl
          have htmem : target ∈ b :: rest := List.mem_of_mem_getLast? hlq
          have hanotq : a ∉ b :: rest := (List.nodup_cons.mp hnd).1
          have hat : a ≠ target := fun he => hanotq (he ▸ htmem)
          obtain ⟨f, rfl⟩ : ∃ f, fuel = f + 1 := by
            cases fuel with
            | zero =>
                simp at hlen
            | succ f => exact ⟨f, rfl⟩
          have hRab : (a, b) ∈ edges := (List.chain'_cons.mp hch).1
          have hchq := (List.chain'_cons.mp hch).2
          have hndq := (List.nodup_cons.mp hnd).2
          have havq : ∀ x ∈ b :: rest, x ∉ a :: visited := by
            intro x hx
            simp only [List.mem_cons, not_or]
            exact ⟨fun he => hanotq (he ▸ hx),
              havoid x (List.mem_cons_of_mem a hx)⟩
          obtain ⟨m, hm, hlem⟩ := ih f b (a :: visited) hchq hndq havq rfl hlq
            (by simp at hlen ⊢; omega)
          have hbnot : b ∉ a :: visited := havq b (List.mem_cons_self b rest)
          have hbsucc : b ∈ (edges.filter
              (fun e => e.1 == a && !((a :: visited).contains e.2))).map
              (fun e => e.2) := by
            apply List.mem_map.mpr
            refine ⟨(a, b), ?_, rfl⟩
            apply List.mem_filter.mpr
            refine ⟨hRab, ?_⟩
            have hcf : ((a :: visited).contains b) = false := by
              cases hcb : ((a :: visited).contains b) with
              | false => rfl
              | true => exact absurd (by simpa [List.elem_iff] using hcb) hbnot
            simp [hcf]
            exact ⟨fun he => hbnot (by rw [he]; exact List.mem_cons_self a visited),
              fun hv => hbnot (List.mem_cons_of_mem a hv)⟩
          have hcand : m + 1 ∈ ((edges.filter
              (fun e => e.1 == a && !((a :: visited).contains e.2))).map
              (fun e => e.2)).filterMap
              (fun nxt => (maxSimpleTo edges target nxt (a :: visited) f).map
                (fun k => k + 1)) := by
            apply List.mem_filterMap.mpr
            refine ⟨b, hbsucc, ?_⟩
            rw [hm]
            rfl
          obtain ⟨M, hM, hle⟩ := listMaxN_le _ _ hcand
          refine ⟨M, ?_, ?_⟩
          · unfold maxSimpleTo
            rw [if_neg (by simp [hat])]
            exact hM
          · simp only [List.length_cons]
            simp only [List.length_cons] at hlem
            omega

theorem dit_upper_bound {s : CKState} (hclosed : EdgesClosed s) (c : String)
    (p : List String) (hp : RootSimplePath s c p) :
    p.length - 1 ≤ _calculate_dit s c := by
  obtain ⟨hch, hnd, ⟨r, hr, hhead⟩, hlast⟩ := hp
  have hrn : r ∈ s.graph_nodes := (List.mem_filter.mp hr).1
  have hmemnodes : ∀ x ∈ p, x ∈ s.graph_nodes :=
    path_mem_nodes hclosed p r hch hhead hrn
  have hcn : c ∈ s.graph_nodes := hmemnodes c (List.mem_of_mem_getLast? hlast)
  have hlenle : p.length ≤ s.graph_nodes.length := nodup_length_le hnd hmemnodes
  obtain ⟨n, hn, hle⟩ := maxSimpleTo_complete s.graph_edges c p
    s.graph_nodes.length r [] hch hnd (by simp) hhead hlast (by omega)
  unfold _calculate_dit
  rw [if_pos (by simpa [List.elem_iff] using hcn)]
  have hgd : (maxSimpleTo s.graph_edges c r [] s.graph_nodes.length).getD 0
      = n := by
    rw [hn]
    rfl
  calc p.length - 1 ≤ n := hle
    _ = (maxSimpleTo s.graph_edges c r [] s.graph_nodes.length).getD 0 :=
        hgd.symm
    _ ≤ (graphRoots s).foldl (fun acc r =>
          max acc ((maxSimpleTo s.graph_edges c r [] s.graph_nodes.length).getD 0)) 0 :=
        foldl_max_ge (fun r =>
          (maxSimpleTo s.graph_edges c r [] s.graph_nodes.length).getD 0)
          (graphRoots s) 0 r hr

theorem dit_attained (s : CKState) (c : String) :
    _calculate_dit s c = 0
    ∨ ∃ p, RootSimplePath s c p ∧ p.length - 1 = _calculate_dit s c := by
  unfold _calculate_dit
  by_cases hcn : s.graph_nodes.contains c = true
  · rw [if_pos hcn]
    rcases foldl_max_cases (fun r =>
        (maxSimpleTo s.graph_edges c r [] s.graph_nodes.length).getD 0)
        (graphRoots s) 0 with h0 | ⟨r, hr, hres⟩
    · exact Or.inl h0
    · cases hms : maxSimpleTo s.graph_edges c r [] s.graph_nodes.length with
      | none =>
          left
          rw [hres, hms]
          rfl
      | some n =>
          obtain ⟨p, hch, hnd, _, hhead, hlast, hplen⟩ :=
            maxSimpleTo_sound s.graph_edges c _ r [] n (by simp) hms
          right
          refine ⟨p, ⟨hch, hnd, ⟨r, hr, hhead⟩, hlast⟩, ?_⟩
          rw [hres, hms]
          simp [hplen]
  · rw [if_neg hcn]
    exact Or.inl rfl

theorem dit_zero_of_no_incoming (s : CKState) (c : String)
    (h : inDegree s c = 0) : _calculate_dit s c = 0 := by
  rcases dit_attained s c with h0 | ⟨p, hp, hlen⟩
  · exact h0
  · by_contra hne
    have hplen : 2 ≤ p.length := by omega
    obtain ⟨x, hx⟩ := chain'_edge_to_last p c hp.1 hp.2.2.2 hplen
    unfold inDegree at h
    have hmem : (x, c) ∈ s.graph_edges.filter (fun e => e.2 == c) :=
      List.mem_filter.mpr ⟨hx, by simp⟩
    have := List.length_pos.mpr (List.ne_nil_of_mem hmem)
    omega

theorem addEdge_edge_shape {s : CKState} {e : String × String} {u v : String}
    (h : e ∈ (s.addEdge u v).graph_edges) : e ∈ s.graph_edges ∨ e = (u, v) := by
  unfold CKState.addEdge at h
  split at h
  · exact Or.inl h
  · rcases List.mem_append.mp h with h1 | h1
    · exact Or.inl h1
    · right
      simpa using h1

theorem addEdge_node_right (s : CKState) (u v : String) :
    v ∈ (s.addEdge u v).graph_nodes := addNode_mem _ v

theorem addEdge_closed {s : CKState} (h : EdgesClosed s) (u v : String) :
    EdgesClosed (s.addEdge u v) := by
  intro e he
  rcases addEdge_edge_shape he with h1 | h1
  · exact ⟨addEdge_nodes_mono (h e h1).1 u v, addEdge_nodes_mono (h e h1).2 u v⟩
  · subst h1
    exact ⟨addEdge_node_left s u v, addEdge_node_right s u v⟩

theorem basesFold_closed (n : String) :
    ∀ (bases : List String) (s : CKState), EdgesClosed s →
    EdgesClosed (basesFold n bases s) := by
  intro bases
  induction bases with
  | nil => intro s h; exact h
  | cons b tl ih =>
      intro s h
      unfold basesFold
      simp only [List.foldl_cons]
      by_cases hb : (b == "object") = true
      · rw [if_pos hb]
        exact ih s h
      · rw [if_neg hb]
        exact ih _ (addEdge_closed h b n)

theorem basesFold_edge_shape (n : String) :
    ∀ (bases : List String) (s : CKState) (e : String × String),
    e ∈ (basesFold n bases s).graph_edges → e ∈ s.graph_edges ∨ e.2 = n := by
  intro bases
  induction bases with
  | nil => intro s e h; exact Or.inl h
  | cons b tl ih =>
      intro s e h
      unfold basesFold at h
      simp only [List.foldl_cons] at h
      by_cases hb : (b == "object") = true
      · rw [if_pos hb] at h
        exact ih s e h
      · rw [if_neg hb] at h
        rcases ih _ e h with h1 | h1
        · rcases addEdge_edge_shape h1 with h2 | h2
          · exact Or.inl h2
          · right
            rw [h2]
        · exact Or.inr h1

theorem processClassDecl_closed {s : CKState} (h : EdgesClosed s)
    (f : String) (d : ClassDecl) : EdgesClosed (processClassDecl none f s d) := by
  rw [processClassDecl_none_unfold]
  apply basesFold_closed
  intro e he
  have := h e he
  exact ⟨addNode_mono this.1 d.name, addNode_mono this.2 d.name⟩

theorem processClassDecl_edges_mono {s : CKState} {e : String × String}
    (h : e ∈ s.graph_edges) (f : String) (d : ClassDecl) :
    e ∈ (processClassDecl none f s d).graph_edges := by
  rw [processClassDecl_none_unfold]
  exact basesFold_edges_mono d.name d.bases _ e h

theorem processClassDecl_edge_shape {s : CKState} {e : String × String}
    {f : String} {d : ClassDecl}
    (h : e ∈ (processClassDecl none f s d).graph_edges) :
    e ∈ s.graph_edges ∨ e.2 = d.name := by
  rw [processClassDecl_none_unfold] at h
  rcases basesFold_edge_shape d.name d.bases _ e h with h1 | h1
  · exact Or.inl h1
  · exact Or.inr h1

theorem processAst_closed {s : CKState} (h : EdgesClosed s) (f : String) :
    ∀ decls : List ClassDecl, EdgesClosed (processAst none f s decls) := by
  intro decls
  unfold processAst
  induction decls generalizing s with
  | nil => exact h
  | cons d tl ih => exact ih (processClassDecl_closed h f d)

theorem processAst_edges_mono {s : CKState} {e : String × String}
    (h : e ∈ s.graph_edges) (f : String) (decls : List ClassDecl) :
    e ∈ (processAst none f s decls).graph_edges := by
  unfold processAst
  induction decls generalizing s with
  | nil => exact h
  | cons d tl ih => exact ih (processClassDecl_edges_mono h f d)

theorem processAst_edge_shape {f : String} :
    ∀ (decls : List ClassDecl) (s : CKState) (e : String × String),
    e ∈ (processAst none f s decls).graph_edges →
    e ∈ s.graph_edges ∨ ∃ d ∈ decls, e.2 = d.name := by
  intro decls
  induction decls with
  | nil => intro s e h; exact Or.inl h
  | cons d tl ih =>
      intro s e h
      unfold processAst at h
      simp only [List.foldl_cons] at h
      rcases ih _ e h with h1 | ⟨d', hd', hn⟩
      · rcases processClassDecl_edge_shape h1 with h2 | h2
        · exact Or.inl h2
        · exact Or.inr ⟨d, List.mem_cons_self d tl, h2⟩
      · exact Or.inr ⟨d', List.mem_cons_of_mem d hd', hn⟩

theorem processAst_mem_edge (f : String) :
    ∀ (decls : List ClassDecl) (s : CKState) (d : ClassDecl) (b : String),
    d ∈ decls → b ∈ d.bases → b ≠ "object" →
    (b, d.name) ∈ (processAst none f s decls).graph_edges := by
  intro decls
  induction decls with
  | nil => intro s d b h; cases h
  | cons d0 tl ih =>
      intro s d b hd hb hbo
      unfold processAst
      simp only [List.foldl_cons]
      rcases List.mem_cons.mp hd with rfl | htl
      · apply processAst_edges_mono _ f tl
        rw [processClassDecl_none_unfold]
        exact basesFold_mem_edge d.name d.bases _ b hb hbo
      · exact ih _ d b htl hb hbo

theorem processFiles_closed (files : List (String × List ClassDecl)) :
    EdgesClosed (processFiles none files) := by
  unfold processFiles
  have : ∀ (fs : List (String × List ClassDecl)) (s : CKState), EdgesClosed s →
      EdgesClosed (fs.foldl (fun s fd => processAst none fd.1 s fd.2) s) := by
    intro fs
    induction fs with
    | nil => intro s h; exact h
    | cons fd tl ih => intro s h; exact ih _ (processAst_closed h fd.1 fd.2)
  apply this
  intro e he
  cases he

theorem processFiles_edge_target (files : List (String × List ClassDecl)) :
    ∀ e ∈ (processFiles none files).graph_edges, e.2 ∈ declaredNames files := by
  unfold processFiles
  have haux : ∀ (fs : List (String × List ClassDecl)) (s : CKState)
      (e : String × String),
      e ∈ (fs.foldl (fun s fd => processAst none fd.1 s fd.2) s).graph_edges →
      e ∈ s.graph_edges ∨ ∃ fd ∈ fs, ∃ d ∈ fd.2, e.2 = d.name := by
    intro fs
    induction fs with
    | nil => intro s e h; exact Or.inl h
    | cons fd tl ih =>
        intro s e h
        simp only [List.foldl_cons] at h
        rcases ih _ e h with h1 | ⟨fd', hfd', d, hd, hn⟩
        · rcases processAst_edge_shape fd.2 s e h1 with h2 | ⟨d, hd, hn⟩
          · exact Or.inl h2
          · exact Or.inr ⟨fd, List.mem_cons_self fd tl, d, hd, hn⟩
        · exact Or.inr ⟨fd', List.mem_cons_of_mem fd hfd', d, hd, hn⟩
  intro e he
  rcases haux files CKState.empty e he with h1 | ⟨fd, hfd, d, hd, hn⟩
  · cases h1
  · unfold declaredNames
    apply List.mem_flatten.mpr
    refine ⟨fd.2.map (fun d => d.name), ?_, ?_⟩
    · exact List.mem_map.mpr ⟨fd, hfd, rfl⟩
    · rw [hn]
      exact List.mem_map.mpr ⟨d, hd, rfl⟩

theorem processFiles_mem_edge (files : List (String × List ClassDecl)) :
    ∀ (fd : String × List ClassDecl) (d : ClassDecl) (b : String),
    fd ∈ files → d ∈ fd.2 → b ∈ d.bases → b ≠ "object" →
    (b, d.name) ∈ (processFiles none files).graph_edges := by
  unfold processFiles
  have haux : ∀ (fs : List (String × List ClassDecl)) (s : CKState)
      (fd : String × List ClassDecl) (d : ClassDecl) (b : String),
      fd ∈ fs → d ∈ fd.2 → b ∈ d.bases → b ≠ "object" →
      (b, d.name) ∈ (fs.foldl (fun s fd => processAst none fd.1 s fd.2) s).graph_edges := by
    intro fs
    induction fs with
    | nil => intro s fd d b h; cases h
    | cons fd0 tl ih =>
        intro s fd d b hfd hd hb hbo
        simp only [List.foldl_cons]
        rcases List.mem_cons.mp hfd with rfl | htl
        · have hmem := processAst_mem_edge fd.1 fd.2 s d b hd hb hbo
          have hmono : ∀ (fs2 : List (String × List ClassDecl)) (st : CKState)
              (e : String × String), e ∈ st.graph_edges →
              e ∈ (fs2.foldl (fun s fd => processAst none fd.1 s fd.2) st).graph_edges := by
            intro fs2
            induction fs2 with
            | nil => intro st e h; exact h
            | cons fd2 tl2 ih2 =>
                intro st e h
                exact ih2 _ _ (processAst_edges_mono h fd2.1 fd2.2)
          exact hmono tl _ _ hmem
        · exact ih _ fd d b htl hd hb hbo
  intro fd d b hfd hd hb hbo
  exact haux files CKState.empty fd d b hfd hd hb hbo

theorem inDegree_zero_of_no_target {s : CKState} {b : String}
    (h : ∀ e ∈ s.graph_edges, e.2 ≠ b) : inDegree s b = 0 := by
  unfold inDegree
  rw [List.filter_eq_nil_iff.mpr (by intro e he; simpa using h e he)]
  rfl

theorem mem_declaredNames {files : List (String × List ClassDecl)}
    {fd : String × List ClassDecl} {d : ClassDecl}
    (hfd : fd ∈ files) (hd : d ∈ fd.2) : d.name ∈ declaredNames files := by
  unfold declaredNames
  apply List.mem_flatten.mpr
  exact ⟨fd.2.map (fun d => d.name), List.mem_map.mpr ⟨fd, hfd, rfl⟩,
    List.mem_map.mpr ⟨d, hd, rfl⟩⟩

/-- C1 amended: for every class, DIT is an upper bound on (and, unless 0,
attained by) the length in edges of simple paths from roots of the
inheritance graph, and DIT is 0 for a class with no incoming edge; however,
base names outside the discovered set ARE added as graph nodes by edge
insertion, so a class whose declared bases are all external/unmodelled (and
not `'object'`) has DIT at least 1 via the external root, rather than 0 as
the claim stated. -/
theorem dit_longest_root_path (files : List (String × List ClassDecl)) :
    (∀ (c : String) (p : List String),
        RootSimplePath (processFiles none files) c p →
        p.length - 1 ≤ _calculate_dit (processFiles none files) c)
    ∧ (∀ c : String, _calculate_dit (processFiles none files) c = 0
        ∨ ∃ p, RootSimplePath (processFiles none files) c p
            ∧ p.length - 1 = _calculate_dit (processFiles none files) c)
    ∧ (∀ c : String, inDegree (processFiles none files) c = 0 →
        _calculate_dit (processFiles none files) c = 0)
    ∧ (∀ fd ∈ files, ∀ d ∈ fd.2, ∀ b ∈ d.bases, b ≠ "object" →
        b ∈ (processFiles none files).graph_nodes
        ∧ (b, d.name) ∈ (processFiles none files).graph_edges
        ∧ (b ∉ declaredNames files →
            1 ≤ _calculate_dit (processFiles none files) d.name)) := by
  refine ⟨?_, ?_, ?_, ?_⟩
  · intro c p hp
    exact dit_upper_bound (processFiles_closed files) c p hp
  · intro c
    exact dit_attained _ c
  · intro c h
    exact dit_zero_of_no_incoming _ c h
  · intro fd hfd d hd b hb hbo
    have hedge := processFiles_mem_edge files fd d b hfd hd hb hbo
    have hclosed := processFiles_closed files
    have hbn : b ∈ (processFiles none files).graph_nodes := (hclosed _ hedge).1
    refine ⟨hbn, hedge, ?_⟩
    intro hbnd
    have hnotarget : ∀ e ∈ (processFiles none files).graph_edges, e.2 ≠ b := by
      intro e he heq
      exact hbnd (heq ▸ processFiles_edge_target files e he)
    have hroot : b ∈ graphRoots (processFiles none files) := by
      unfold graphRoots
      apply List.mem_filter.mpr
      refine ⟨hbn, by simp [inDegree_zero_of_no_target hnotarget]⟩
    have hbne : b ≠ d.name := fun he => hbnd (he ▸ mem_declaredNames hfd hd)
    have hpath : RootSimplePath (processFiles none files) d.name [b, d.name] := by
      refine ⟨?_, ?_, ⟨b, hroot, rfl⟩, ?_⟩
      · exact List.chain'_cons.mpr ⟨hedge, List.chain'_singleton _⟩
      · simp [hbne]
      · rfl
    have := dit_upper_bound hclosed d.name [b, d.name] hpath
    simpa using this

/-- C1 counterexample: for the one-class project `class C(Ext)` with `Ext`
undiscovered, the claim demands DIT(C) = 0 and that `Ext` not be a node of
the inheritance graph; the code gives DIT(C) = 1 and `Ext` is a node. -/
theorem dit_external_base_counterexample :
    _calculate_dit stateExternalBase "C" = 1
    ∧ stateExternalBase.graph_nodes.contains "Ext" = true :=
  ⟨by decide, by decide⟩

/-- Witness for the amended C1 at the concrete `class C(Ext)` project. -/
theorem dit_longest_root_path_witness :
    (("a.py", [declExternalBase]) ∈ filesExternalBase
      ∧ declExternalBase ∈ [declExternalBase]
      ∧ "Ext" ∈ declExternalBase.bases
      ∧ "Ext" ≠ "object"
      ∧ "Ext" ∉ declaredNames filesExternalBase)
    ∧ 1 ≤ _calculate_dit (processFiles none filesExternalBase) "C" := by
  have h := (dit_longest_root_path filesExternalBase).2.2.2
    ("a.py", [declExternalBase]) (by simp [filesExternalBase])
    declExternalBase (by simp) "Ext" (by simp [declExternalBase]) (by decide)
  exact ⟨⟨by simp [filesExternalBase], by simp, by simp [declExternalBase],
    by decide, by decide⟩, h.2.2 (by decide)⟩
